import Mathlib

/-!
The Level parameter setter of package slogsetter: a shallow embedding of
`slogsetter/levelSetter.go`.

* A Go map is an association list with distinct keys (`AList`).  The order in
  which the Go runtime enumerates the keys of a map is unspecified and may
  change from one call to the next, so every operation that ranges over
  `maps.Keys` takes the enumeration of that call as an argument `keys`.
* `slog.Level` is a machine integer; the only arithmetic the code does on it
  is `level - 1`, which wraps around (`slog.wrap`).
* `sort.Slice` belongs to the Go standard library.  Operations that sort take
  the sorting routine as an argument; `sort.insertionSort_func` is the routine
  that `sort.Slice` runs on slices of at most twelve elements.
* A pointer is an optional address into a store of levels.
* `fmt`, `strconv` and `psetter` are outside the repository: `SetWithVal` takes
  them as collaborators; `strconv.Quote` models what the verb `%q` writes.
* For the functions one by one a map is a value.  `World` is the memory in
  which maps are objects that several variables may refer to, the object of
  the package variable `dfltLevelMap` among them; `World.step` is the effect
  of a call on it.
-/

namespace slog

/-- The type `slog.Level` of Go: an `int`. -/
abbrev Level := Int

/-- Constant `slog.LevelDebug`. -/
def LevelDebug : Level := -4

/-- Constant `slog.LevelInfo`. -/
def LevelInfo : Level := 0

/-- Constant `slog.LevelWarn`. -/
def LevelWarn : Level := 4

/-- Constant `slog.LevelError`. -/
def LevelError : Level := 8

/-- The value of a Go `int` expression whose exact value is `x`: wrap-around
to the 64 bit signed range. -/
def wrap (x : Int) : Int :=
  (x + 9223372036854775808) % 18446744073709551616 - 9223372036854775808

/-- The helper `str` inside `Level.String`: the base name, followed by the
signed offset (`%+d`) when it is not zero. -/
def str (base : String) (val : Int) : String :=
  if val = 0 then base
  else if val < 0 then base ++ "-" ++ Nat.repr val.natAbs
  else base ++ "+" ++ Nat.repr val.natAbs

/-- The method `Level.String` of the standard library package `log/slog`; the
tests of this repository expect its values DEBUG, INFO, WARN, ERROR, ERROR+34,
ERROR+35, INFO+1 and DEBUG-99. -/
def Level.String (l : Level) : String :=
  if l < LevelInfo then str "DEBUG" (l - LevelDebug)
  else if l < LevelWarn then str "INFO" (l - LevelInfo)
  else if l < LevelError then str "WARN" (l - LevelWarn)
  else str "ERROR" (l - LevelError)

end slog

namespace sort

/-- The inner loop of `insertionSort_func`: `x` stands at index `j` and the
elements before it are given from index `j-1` downwards; while
`less(j, j-1)` holds the two are swapped.  The result is again listed from the
highest index downwards. -/
def siftLeft (less : String → String → Bool) (x : String) : List String → List String
  | [] => [x]
  | y :: rest => if less x y then y :: siftLeft less x rest else x :: y :: rest

/-- The routine `insertionSort_func` of Go's package `sort`, which `sort.Slice`
runs on a slice of at most twelve elements: for `i = 1, 2, ...` the element at
index `i` is moved left past every element it is `less` than. -/
def insertionSort_func (less : String → String → Bool) (data : List String) : List String :=
  (data.foldl (fun sortedRev x => siftLeft less x sortedRev) []).reverse

/-- What is assumed of a sorting routine standing for `sort.Slice`: the result
is a rearrangement of the input in which no element is directly followed by an
element that `less` puts strictly before it. -/
def SliceSorter (srt : (String → String → Bool) → List String → List String) : Prop :=
  ∀ (less : String → String → Bool) (data : List String),
    (srt less data).Perm data ∧
    List.Chain' (fun p n => less p n = true ∨ less n p = false) (srt less data)

end sort

namespace strconv

/-- The digit at index `n` of the string `lowerhex`. -/
def lowerhex (n : Nat) : Char := Char.ofNat (if n < 10 then 48 + n else 87 + n)

/-- The function `strconv.IsPrint`; `wide` stands for its tables, which are
consulted for the characters above 255 only. -/
def IsPrint (wide : Char → Bool) (r : Char) : Bool :=
  if r.toNat ≤ 255 then
    if 32 ≤ r.toNat ∧ r.toNat ≤ 126 then true
    else if 161 ≤ r.toNat ∧ r.toNat ≤ 255 then decide (r.toNat ≠ 173)
    else false
  else wide r

/-- The function `appendEscapedRune` as `strconv.Quote` calls it (the quote is
the double quote, character 34; the backslash is character 92): what is
appended for the character `r`. -/
def appendEscapedRune (wide : Char → Bool) (r : Char) : List Char :=
  let n := r.toNat
  if n = 34 ∨ n = 92 then [Char.ofNat 92, r]
  else if IsPrint wide r then [r]
  else if n = 7 then [Char.ofNat 92, 'a']
  else if n = 8 then [Char.ofNat 92, 'b']
  else if n = 12 then [Char.ofNat 92, 'f']
  else if n = 10 then [Char.ofNat 92, 'n']
  else if n = 13 then [Char.ofNat 92, 'r']
  else if n = 9 then [Char.ofNat 92, 't']
  else if n = 11 then [Char.ofNat 92, 'v']
  else if n < 32 ∨ n = 127 then [Char.ofNat 92, 'x', lowerhex (n / 16), lowerhex (n % 16)]
  else if n < 65536 then
    [Char.ofNat 92, 'u', lowerhex (n / 4096 % 16), lowerhex (n / 256 % 16),
      lowerhex (n / 16 % 16), lowerhex (n % 16)]
  else
    [Char.ofNat 92, 'U', lowerhex (n / 268435456 % 16), lowerhex (n / 16777216 % 16),
      lowerhex (n / 1048576 % 16), lowerhex (n / 65536 % 16), lowerhex (n / 4096 % 16),
      lowerhex (n / 256 % 16), lowerhex (n / 16 % 16), lowerhex (n % 16)]

/-- The function `strconv.Quote`, which is what the verb `%q` of `fmt` writes
for a string: the escaped characters between two double quotes. -/
def Quote (wide : Char → Bool) (s : String) : String :=
  String.mk (Char.ofNat 34 :: (s.data.flatMap (appendEscapedRune wide) ++ [Char.ofNat 34]))

end strconv

namespace slogsetter

/-- Comparison `a < b` of two Go strings: lexicographic, character by
character (Go compares the UTF-8 bytes, which orders strings the same way as
their code points). -/
def strLessData : List Char → List Char → Bool
  | [], [] => false
  | [], _ :: _ => true
  | _ :: _, [] => false
  | a :: as, b :: bs =>
    if a.toNat < b.toNat then true
    else if b.toNat < a.toNat then false
    else strLessData as bs

/-- The Go expression `a < b` on strings. -/
def strLess (a b : String) : Bool := strLessData a.data b.data

/-- The type `LevelMap`: a map between names and slog levels. -/
abbrev LevelMap := AList (fun _ : String => slog.Level)

/-- The Go expression `levelMap[name]`: the zero level when the name is not a key. -/
def LevelMap.at (levelMap : LevelMap) (name : String) : slog.Level :=
  (levelMap.lookup name).getD 0

/-- The package variable `dfltLevelMap`. -/
def dfltLevelMap : LevelMap :=
  [(⟨slog.Level.String slog.LevelDebug, slog.LevelDebug⟩ : Sigma fun _ : String => slog.Level),
   ⟨slog.Level.String slog.LevelInfo, slog.LevelInfo⟩,
   ⟨slog.Level.String slog.LevelWarn, slog.LevelWarn⟩,
   ⟨slog.Level.String slog.LevelError, slog.LevelError⟩].toAList

/-- A store of levels, indexed by address. -/
abbrev Store := Nat → slog.Level

/-- The struct `Level`: `Value` is a pointer (`none` is nil) to the level that
the setter sets, `LevelMap` the alternative map (`none` is the nil map). -/
structure Level where
  Value : Option Nat
  LevelMap : Option slogsetter.LevelMap

/-- The collaborators outside this repository that `SetWithVal` calls:
the `%q` verb of `fmt`, `psetter.SuggestedVals` and `psetter.SuggestionString`. -/
structure Collab where
  quote : String → String
  SuggestedVals : String → List String → List String
  SuggestionString : List String → String

/-- The result of running a function that may panic. -/
inductive Run (α : Type) where
  | done (result : α) (store : Store)
  | panicked (msg : String)

/-- The function `maps.Copy(dst, src)`: every entry of `src` is stored in `dst`. -/
def mapsCopy (dst src : LevelMap) : LevelMap := src ∪ dst

/-- The function `PopulateDefaultLevelMap`: `m` is the pointer (`none` is nil),
`cur` the map variable it points to (`none` is the nil map).  The result is
the panic value, or the map variable the pointer points to afterwards. -/
def PopulateDefaultLevelMap (m : Option Nat) (cur : Option LevelMap) :
    Except String (Option LevelMap) :=
  match m with
  | none => .error "You must call PopulateDefaultLevelMap with a non-nil pointer"
  | some _ =>
    let made : LevelMap := match cur with
      | none => ∅
      | some c => c
    .ok (some (mapsCopy made dfltLevelMap))

/-- The method `effectiveLevelMap`. -/
def Level.effectiveLevelMap (s : Level) : slogsetter.LevelMap :=
  match s.LevelMap with
  | some m => m
  | none => dfltLevelMap

/-- The method `SetWithVal`; `keys` is what `slices.Collect(maps.Keys(levelMap))`
yields in this call. -/
def Level.SetWithVal (c : Collab) (s : Level) (_name : String) (paramVal : String)
    (keys : List String) (store : Store) : Run (Option String) :=
  let levelMap := s.effectiveLevelMap
  match levelMap.lookup paramVal with
  | none =>
    .done (some ("bad logging level name (" ++ c.quote paramVal ++ ")" ++
      c.SuggestionString (c.SuggestedVals paramVal keys))) store
  | some level =>
    match s.Value with
    | none => .panicked "runtime error: invalid memory address or nil pointer dereference"
    | some p => .done none (Function.update store p level)

/-- The closure handed to `sort.Slice` in `sortedLevelNames`, on the names at
the two indices. -/
def sortedLevelNames.less (levelMap : LevelMap) (a b : String) : Bool :=
  if levelMap.at a < levelMap.at b then true
  else if levelMap.at b < levelMap.at a then false
  else if (dfltLevelMap.lookup a).isSome then true
  else if (dfltLevelMap.lookup b).isSome then false
  else strLess a b

/-- The method `sortedLevelNames`; `sortSlice` stands for `sort.Slice` and
`keys` is what `slices.Collect(maps.Keys(levelMap))` yields in this call. -/
def Level.sortedLevelNames (sortSlice : (String → String → Bool) → List String → List String)
    (s : Level) (keys : List String) : List String :=
  let levelMap := s.effectiveLevelMap
  let names := keys
  if names.length = 0 then names
  else sortSlice (sortedLevelNames.less levelMap) names

/-- The type `psetter.AllowedVals[string]`. -/
abbrev AllowedVals := AList (fun _ : String => String)

/-- The type `psetter.Aliases[string]`. -/
abbrev Aliases := AList (fun _ : String => List String)

/-- The loop of `AllowedValuesMap` over the remaining names. -/
def AllowedValuesMap.loop (levelMap : LevelMap) :
    List String → AllowedVals → slog.Level → AllowedVals
  | [], avm, _ => avm
  | name :: rest, avm, lastLevel =>
    AllowedValuesMap.loop levelMap rest
      (if levelMap.at name ≠ lastLevel
        then avm.insert name (slog.Level.String (levelMap.at name)) else avm)
      (levelMap.at name)

/-- The method `AllowedValuesMap`. -/
def Level.AllowedValuesMap (sortSlice : (String → String → Bool) → List String → List String)
    (s : Level) (keys : List String) : AllowedVals :=
  let levelMap := s.effectiveLevelMap
  let names := s.sortedLevelNames sortSlice keys
  match names with
  | [] => ∅
  | first :: _ =>
    AllowedValuesMap.loop levelMap names ∅ (slog.wrap (levelMap.at first - 1))

/-- The loop of `AllowedValuesAliasMap` over the remaining names. -/
def AllowedValuesAliasMap.loop (levelMap : LevelMap) :
    List String → Aliases → slog.Level → String → Aliases
  | [], avam, _, _ => avam
  | name :: rest, avam, lastLevel, aliasTo =>
    if levelMap.at name ≠ lastLevel
    then AllowedValuesAliasMap.loop levelMap rest avam (levelMap.at name) name
    else AllowedValuesAliasMap.loop levelMap rest (avam.insert name [aliasTo])
      (levelMap.at name) aliasTo

/-- The method `AllowedValuesAliasMap`. -/
def Level.AllowedValuesAliasMap
    (sortSlice : (String → String → Bool) → List String → List String)
    (s : Level) (keys : List String) : Aliases :=
  let levelMap := s.effectiveLevelMap
  let names := s.sortedLevelNames sortSlice keys
  match names with
  | [] => ∅
  | first :: _ =>
    AllowedValuesAliasMap.loop levelMap names ∅ (slog.wrap (levelMap.at first - 1)) ""

/-- The method `CurrentValue`: the `String()` of the level that `Value`
points to; `none` is the panic of dereferencing a nil `Value`. -/
def Level.CurrentValue (s : Level) (store : Store) : Option String :=
  match s.Value with
  | none => none
  | some p => some (slog.Level.String (store p))

/-- The method `CheckSetter`: the result is the panic value, `none` when the
method returns; `len(levelMap)` is the number of keys. -/
def Level.CheckSetter (s : Level) (name : String) : Option String :=
  let intro := name ++ ": slogsetter.Level Check failed:"
  match s.Value with
  | none => some (intro ++ " the Value to be set is nil")
  | some _ =>
    let levelMap := s.effectiveLevelMap
    if levelMap.keys.length = 0 then
      some (intro ++ " a LevelMap has been set but it is empty")
    else if levelMap.keys.length = 1 then
      some (intro ++ " a LevelMap has been set but it has only one entry")
    else none

/-- The number of distinct levels among the values of a map. -/
def LevelMap.distinctLevels (levelMap : LevelMap) : Nat :=
  ((levelMap.keys.map levelMap.at).dedup).length

/-- Name `a` stands earlier than name `b` in the sequence `names`. -/
def Earlier (names : List String) (a b : String) : Prop :=
  names.indexOf a < names.indexOf b

instance (names : List String) (a b : String) : Decidable (Earlier names a b) := by
  unfold Earlier; infer_instance

/-- The order that the doc comment of `sortedLevelNames` describes, between a
name `p` and a name `n`: `p` has the lower level, or the levels are equal and
either `p` is a key of the default map, or `n` is not and `p` is
alphabetically before `n`. -/
def NameOrder (levelMap : LevelMap) (p n : String) : Prop :=
  levelMap.at p < levelMap.at n ∨
  (levelMap.at p = levelMap.at n ∧
    ((dfltLevelMap.lookup p).isSome = true ∨
      ((dfltLevelMap.lookup n).isSome = false ∧ strLess p n = true)))

/-- The names of a walk that are entered in the allowed-values map: those
whose level differs from the level seen last. -/
def walkKept (levelMap : LevelMap) : slog.Level → List String → List String
  | _, [] => []
  | lastLevel, name :: rest =>
    if levelMap.at name ≠ lastLevel then name :: walkKept levelMap (levelMap.at name) rest
    else walkKept levelMap (levelMap.at name) rest

/-- The names of a walk that are entered in the alias map: those whose level
equals the level seen last. -/
def walkSkipped (levelMap : LevelMap) : slog.Level → List String → List String
  | _, [] => []
  | lastLevel, name :: rest =>
    if levelMap.at name ≠ lastLevel then walkSkipped levelMap (levelMap.at name) rest
    else name :: walkSkipped levelMap (levelMap.at name) rest

/-- The value `lastLevel` with which both walks over the sorted names start:
one below the level of the first name, wrapping around. -/
def walkStart (levelMap : LevelMap) : List String → slog.Level
  | [] => 0
  | first :: _ => slog.wrap (levelMap.at first - 1)

/-- No two different keys of the map are both keys of the default map and
have the same level. -/
def Untied (levelMap : LevelMap) : Prop :=
  ∀ a ∈ levelMap.keys, ∀ b ∈ levelMap.keys,
    a ∈ dfltLevelMap.keys → b ∈ dfltLevelMap.keys → levelMap.at a = levelMap.at b → a = b

/-- The memory of a program that uses the package.  A Go map is an object that
several variables may refer to, and the package variable `dfltLevelMap` refers
to one such object. -/
structure World where
  /-- the variables of type `slog.Level`, by address -/
  levels : Store
  /-- the variables of type `LevelMap`, by address: the map object each refers
  to, `none` for the nil map -/
  mapVars : Nat → Option Nat
  /-- the contents of the map objects, by reference -/
  mapObjs : Nat → LevelMap
  /-- the references from this one on are not in use -/
  next : Nat

/-- The map object that the package variable `dfltLevelMap` refers to. -/
def dfltRef : Nat := 0

/-- A value of the struct `Level` in a `World`: `Value` is the address of a
level variable, `LevelMap` the reference to a map object (`none` is nil). -/
structure LevelRef where
  Value : Option Nat
  LevelMap : Option Nat

/-- The setter as the methods see it: `effectiveLevelMap` reads the object of
the setter's `LevelMap` when it is non-nil and the object of `dfltLevelMap`
when it is nil. -/
def World.view (w : World) (s : LevelRef) : Level :=
  ⟨s.Value, some (w.mapObjs (s.LevelMap.getD dfltRef))⟩

/-- A call of one of the functions of the package. -/
inductive Call where
  | PopulateDefaultLevelMap (m : Option Nat)
  | SetWithVal (s : LevelRef) (name paramVal : String) (keys : List String)
  | sortedLevelNames (s : LevelRef) (keys : List String)
  | AllowedValuesMap (s : LevelRef) (keys : List String)
  | AllowedValuesAliasMap (s : LevelRef) (keys : List String)
  | CurrentValue (s : LevelRef)
  | CheckSetter (s : LevelRef) (name : String)

/-- The memory after a call.  `PopulateDefaultLevelMap` stores into the map
object that `*m` refers to, after making a new object when `*m` is nil;
`SetWithVal` stores into the level variable `*s.Value`; the other functions
store only into slices and maps they have made themselves.  A call that
panics has stored nothing before. -/
def World.step (c : Collab) (w : World) : Call → World
  | .PopulateDefaultLevelMap none => w
  | .PopulateDefaultLevelMap (some a) =>
    match w.mapVars a with
    | none =>
      { w with
        mapVars := Function.update w.mapVars a (some w.next)
        mapObjs := Function.update w.mapObjs w.next (mapsCopy ∅ (w.mapObjs dfltRef))
        next := w.next + 1 }
    | some r =>
      { w with
        mapObjs := Function.update w.mapObjs r (mapsCopy (w.mapObjs r) (w.mapObjs dfltRef)) }
  | .SetWithVal s name paramVal keys =>
    match (w.view s).SetWithVal c name paramVal keys w.levels with
    | .done _ store => { w with levels := store }
    | .panicked _ => w
  | .sortedLevelNames _ _ => w
  | .AllowedValuesMap _ _ => w
  | .AllowedValuesAliasMap _ _ => w
  | .CurrentValue _ => w
  | .CheckSetter _ _ => w

/-- The memory after a sequence of calls. -/
def World.run (c : Collab) (w : World) (calls : List Call) : World :=
  calls.foldl (World.step c) w

/-- The object of `dfltLevelMap` is in use and holds the initial entries. -/
def World.Sound (w : World) : Prop :=
  dfltRef < w.next ∧ w.mapObjs dfltRef = dfltLevelMap

/-- A memory right after the initialisation of the package. -/
def initWorld : World where
  levels := fun _ => 0
  mapVars := fun _ => none
  mapObjs := fun r => if r = dfltRef then dfltLevelMap else ∅
  next := 1

/-- A memory in which the map variable at address 9 refers to the object of
`dfltLevelMap` itself. -/
def aliasWorld : World where
  levels := fun _ => 0
  mapVars := fun a => if a = 9 then some dfltRef else none
  mapObjs := fun r => if r = dfltRef then dfltLevelMap else ∅
  next := 1

/-- A map whose lowest level is the least 64 bit integer. -/
def minMap : LevelMap :=
  [(⟨"lo", -9223372036854775808⟩ : Sigma fun _ : String => slog.Level), ⟨"hi", 0⟩].toAList

/-- A setter on `minMap`. -/
def minSetter : Level := ⟨some 0, some minMap⟩

/-- Collaborators that quote by putting the value between two double quotes
(character 34) and suggest nothing. -/
def plainCollab : Collab where
  quote := fun v => String.singleton (Char.ofNat 34) ++ v ++ String.singleton (Char.ofNat 34)
  SuggestedVals := fun _ _ => []
  SuggestionString := fun _ => ""

/-- Collaborators that quote as the verb `%q` does and suggest nothing. -/
def quotingCollab : Collab where
  quote := strconv.Quote (fun _ => true)
  SuggestedVals := fun _ _ => []
  SuggestionString := fun _ => ""

/-- The name a"b: the letter a, a double quote (character 34), the letter b. -/
def quoteName : String := String.mk ['a', Char.ofNat 34, 'b']

/-- The string that holds one double quote (character 34). -/
def doubleQuote : String := String.singleton (Char.ofNat 34)

/-- The string that holds one backslash (character 92). -/
def backslash : String := String.singleton (Char.ofNat 92)

/-- What a run returned, `none` when it panicked. -/
def Run.result {α : Type} : Run α → Option α
  | .done r _ => some r
  | .panicked _ => none

/-- A setter on the default map whose `Value` points to address 0. -/
def dfltSetter : Level := ⟨some 0, none⟩

/-- The map with the entries a: 42, b: 43, x: 43 of `TestLevelAllowedValuesMap`. -/
def abxMap : LevelMap :=
  [(⟨"a", 42⟩ : Sigma fun _ : String => slog.Level), ⟨"b", 43⟩, ⟨"x", 43⟩].toAList

/-- A setter on `abxMap`. -/
def abxSetter : Level := ⟨some 0, some abxMap⟩

/-- The default map with the entries a: INFO, b: INFO, c: ERROR, d: WARN and
aPlusOne: INFO+1 added, as in `TestLevelAllowedValuesMap`. -/
def dupsMap : LevelMap :=
  ((((dfltLevelMap.insert "a" slog.LevelInfo).insert "b" slog.LevelInfo).insert "c"
    slog.LevelError).insert "d" slog.LevelWarn).insert "aPlusOne" (slog.LevelInfo + 1)

/-- A setter on `dupsMap`. -/
def dupsSetter : Level := ⟨some 0, some dupsMap⟩

/-- A map in which the two default names DEBUG and INFO share the level INFO:
what a caller gets who supersedes the DEBUG entry of the default map. -/
def tiedMap : LevelMap :=
  [(⟨"DEBUG", slog.LevelInfo⟩ : Sigma fun _ : String => slog.Level),
   ⟨"INFO", slog.LevelInfo⟩].toAList

/-- A setter on `tiedMap`. -/
def tiedSetter : Level := ⟨some 0, some tiedMap⟩

end slogsetter

/-! ## The cases of the repository's tests, run on the embedding -/

namespace slogsetter

theorem test_levelString :
    slog.Level.String 42 = "ERROR+34" ∧ slog.Level.String 43 = "ERROR+35" ∧
    slog.Level.String (slog.LevelInfo + 1) = "INFO+1" ∧
    slog.Level.String (slog.LevelDebug - 99) = "DEBUG-99" ∧
    dfltLevelMap.keys = ["DEBUG", "INFO", "WARN", "ERROR"] := by
  decide

theorem test_allowedValuesMap_abx :
    (abxSetter.AllowedValuesMap sort.insertionSort_func ["x", "b", "a"]).entries
      = [⟨"b", "ERROR+35"⟩, ⟨"a", "ERROR+34"⟩] ∧
    (abxSetter.AllowedValuesAliasMap sort.insertionSort_func ["x", "b", "a"]).entries
      = [⟨"x", ["b"]⟩] := by
  decide

theorem test_allowedValuesMap_dups :
    (dupsSetter.AllowedValuesMap sort.insertionSort_func dupsMap.keys).entries
      = [⟨"ERROR", "ERROR"⟩, ⟨"WARN", "WARN"⟩, ⟨"aPlusOne", "INFO+1"⟩, ⟨"INFO", "INFO"⟩,
         ⟨"DEBUG", "DEBUG"⟩] ∧
    (dupsSetter.AllowedValuesAliasMap sort.insertionSort_func dupsMap.keys).entries
      = [⟨"c", ["ERROR"]⟩, ⟨"d", ["WARN"]⟩, ⟨"b", ["INFO"]⟩, ⟨"a", ["INFO"]⟩] := by
  decide

end slogsetter

/-! ## The order of Go strings -/

namespace slogsetter

theorem strLessData_irrefl (l : List Char) : strLessData l l = false := by
  induction l with
  | nil => rfl
  | cons a l ih => simp [strLessData, ih]

theorem strLessData_trans : ∀ (a b c : List Char),
    strLessData a b = true → strLessData b c = true → strLessData a c = true
  | [], [], _, h, _ => by simp [strLessData] at h
  | [], _ :: _, [], _, h => by simp [strLessData] at h
  | [], _ :: _, _ :: _, _, _ => by simp [strLessData]
  | _ :: _, [], _, h, _ => by simp [strLessData] at h
  | _ :: _, _ :: _, [], _, h => by simp [strLessData] at h
  | x :: a, y :: b, z :: c, h₁, h₂ => by
    simp only [strLessData] at h₁ h₂ ⊢
    split_ifs at h₁ h₂ ⊢ <;> first
      | rfl
      | omega
      | exact strLessData_trans a b c h₁ h₂

theorem strLessData_total : ∀ (a b : List Char), a ≠ b →
    strLessData a b = true ∨ strLessData b a = true
  | [], [], h => absurd rfl h
  | [], _ :: _, _ => by simp [strLessData]
  | _ :: _, [], _ => by simp [strLessData]
  | x :: a, y :: b, h => by
    simp only [strLessData]
    by_cases h₁ : x.toNat < y.toNat
    · simp [h₁]
    · by_cases h₂ : y.toNat < x.toNat
      · simp [h₂]
      · have hxy : x = y := Char.ext (UInt32.ext (by simp only [Char.toNat] at h₁ h₂; omega))
        subst hxy
        simp only [h₁, if_false]
        exact strLessData_total a b (fun hab => h (by rw [hab]))

theorem strLess_irrefl (a : String) : strLess a a = false := strLessData_irrefl _

theorem strLess_trans {a b c : String} (h₁ : strLess a b = true) (h₂ : strLess b c = true) :
    strLess a c = true := strLessData_trans _ _ _ h₁ h₂

theorem strLess_total {a b : String} (h : a ≠ b) : strLess a b = true ∨ strLess b a = true :=
  strLessData_total _ _ (fun hd => h (String.ext hd))

theorem strLess_asymm {a b : String} (h : strLess a b = true) : strLess b a = false := by
  cases hba : strLess b a with
  | false => rfl
  | true => have := strLess_trans h hba; rw [strLess_irrefl] at this; cases this

end slogsetter

/-! ## Insertion sort meets what is assumed of `sort.Slice` -/

namespace sort

theorem siftLeft_perm (less : String → String → Bool) (x : String) (l : List String) :
    (siftLeft less x l).Perm (x :: l) := by
  induction l with
  | nil => exact List.Perm.refl _
  | cons y rest ih =>
    simp only [siftLeft]
    split
    · exact ((List.Perm.cons y ih).trans (List.Perm.swap x y rest))
    · exact List.Perm.refl _

theorem siftLeft_head (less : String → String → Bool) (x : String) (l : List String) :
    (siftLeft less x l).head? = some x ∨ (siftLeft less x l).head? = l.head? := by
  cases l with
  | nil => left; rfl
  | cons y rest =>
    simp only [siftLeft]
    split
    · right; rfl
    · left; rfl

theorem siftLeft_chain (less : String → String → Bool) (x : String) (l : List String)
    (h : List.Chain' (flip fun p n => less p n = true ∨ less n p = false) l) :
    List.Chain' (flip fun p n => less p n = true ∨ less n p = false) (siftLeft less x l) := by
  induction l with
  | nil => simp [siftLeft]
  | cons y rest ih =>
    simp only [siftLeft]
    rw [List.chain'_cons'] at h
    by_cases hxy : less x y = true
    · rw [if_pos hxy]
      refine List.Chain'.cons' (ih h.2) ?_
      intro z hz
      rcases siftLeft_head less x rest with hh | hh
      · rw [hh] at hz
        cases hz
        exact Or.inl hxy
      · rw [hh] at hz
        exact h.1 z hz
    · rw [if_neg hxy]
      refine List.Chain'.cons' (List.chain'_cons'.mpr h) ?_
      intro z hz
      cases hz
      exact Or.inr (by simpa using hxy)

theorem insertionSort_func_fold (less : String → String → Bool) (data : List String) :
    ∀ acc : List String,
      List.Chain' (flip fun p n => less p n = true ∨ less n p = false) acc →
      (data.foldl (fun sortedRev x => siftLeft less x sortedRev) acc).Perm (data ++ acc) ∧
      List.Chain' (flip fun p n => less p n = true ∨ less n p = false)
        (data.foldl (fun sortedRev x => siftLeft less x sortedRev) acc) := by
  induction data with
  | nil => intro acc h; exact ⟨List.Perm.refl _, h⟩
  | cons x rest ih =>
    intro acc h
    obtain ⟨hp, hc⟩ := ih (siftLeft less x acc) (siftLeft_chain less x acc h)
    refine ⟨hp.trans ?_, hc⟩
    refine ((List.Perm.append_left rest (siftLeft_perm less x acc)).trans ?_)
    exact List.perm_middle

/-- Go's insertion sort returns a rearrangement of its input without a
neighbouring pair in strictly wrong order, whatever `less` is. -/
theorem insertionSort_func_sliceSorter : SliceSorter insertionSort_func := by
  intro less data
  obtain ⟨hp, hc⟩ := insertionSort_func_fold less data [] List.chain'_nil
  constructor
  · unfold insertionSort_func
    exact (List.reverse_perm _).trans (by simpa using hp)
  · unfold insertionSort_func
    exact List.chain'_reverse.mpr hc

end sort

/-! ## The sorted sequence of names -/

namespace slogsetter

theorem less_nameOrder (m : LevelMap) (p n : String) (hne : p ≠ n)
    (h : sortedLevelNames.less m p n = true ∨ sortedLevelNames.less m n p = false) :
    NameOrder m p n := by
  unfold NameOrder
  unfold sortedLevelNames.less at h
  rcases lt_trichotomy (m.at p) (m.at n) with hlt | heq | hgt
  · exact Or.inl hlt
  · right
    refine ⟨heq, ?_⟩
    simp only [heq, lt_self_iff_false, if_false] at h
    by_cases hp : (dfltLevelMap.lookup p).isSome = true
    · exact Or.inl hp
    · right
      by_cases hn : (dfltLevelMap.lookup n).isSome = true
      · simp [hp, hn] at h
      · simp only [hp, hn, if_false, Bool.false_eq_true] at h
        refine ⟨by simpa using hn, ?_⟩
        rcases h with h | h
        · exact h
        · rcases strLess_total hne with h' | h'
          · exact h'
          · rw [h] at h'; cases h'
  · exfalso
    have h₁ : ¬ m.at p < m.at n := not_lt.mpr (le_of_lt hgt)
    simp [h₁, hgt] at h

theorem nameOrder_trans (m : LevelMap) {a b c : String}
    (hab : NameOrder m a b) (hbc : NameOrder m b c) : NameOrder m a c := by
  unfold NameOrder at *
  rcases hab with hab | ⟨eab, hab⟩
  · rcases hbc with hbc | ⟨ebc, -⟩
    · exact Or.inl (lt_trans hab hbc)
    · exact Or.inl (ebc ▸ hab)
  · rcases hbc with hbc | ⟨ebc, hbc⟩
    · exact Or.inl (eab ▸ hbc)
    · right
      refine ⟨eab.trans ebc, ?_⟩
      rcases hab with ha | ⟨hb, hlt⟩
      · exact Or.inl ha
      · rcases hbc with hb' | ⟨hc, hlt'⟩
        · rw [hb] at hb'; cases hb'
        · exact Or.inr ⟨hc, strLess_trans hlt hlt'⟩

theorem nameOrder_level (m : LevelMap) {a b : String} (h : NameOrder m a b) :
    m.at a ≤ m.at b := by
  rcases h with h | ⟨h, -⟩
  · exact le_of_lt h
  · exact le_of_eq h

theorem chain'_ne_of_nodup {R : String → String → Prop} :
    ∀ (l : List String), List.Chain' R l → l.Nodup → List.Chain' (fun a b => a ≠ b ∧ R a b) l
  | [], _, _ => List.chain'_nil
  | [_], _, _ => List.chain'_singleton _
  | a :: b :: l, hc, hn => by
    rw [List.chain'_cons] at hc ⊢
    refine ⟨⟨?_, hc.1⟩, chain'_ne_of_nodup (b :: l) hc.2 (List.nodup_cons.mp hn).2⟩
    intro hab
    exact (List.nodup_cons.mp hn).1 (hab ▸ List.mem_cons_self _ _)

/-- Whatever the routine standing for `sort.Slice` is, as long as it meets
`sort.SliceSorter`, the result of `sortedLevelNames` is a rearrangement of the
enumerated keys in which every name is in `NameOrder` with every later name. -/
theorem sortedLevelNames_spec (srt : (String → String → Bool) → List String → List String)
    (hsrt : sort.SliceSorter srt) (s : Level) (keys : List String) (hnd : keys.Nodup) :
    (s.sortedLevelNames srt keys).Perm keys ∧
    (s.sortedLevelNames srt keys).Pairwise (NameOrder s.effectiveLevelMap) := by
  unfold Level.sortedLevelNames
  simp only
  split
  · next h0 =>
    have : keys = [] := List.length_eq_zero.mp h0
    subst this
    exact ⟨List.Perm.refl _, List.Pairwise.nil⟩
  · obtain ⟨hp, hc⟩ := hsrt (sortedLevelNames.less s.effectiveLevelMap) keys
    refine ⟨hp, ?_⟩
    have hc' := chain'_ne_of_nodup _ hc (hp.nodup_iff.mpr hnd)
    have hc'' : List.Chain' (NameOrder s.effectiveLevelMap)
        (srt (sortedLevelNames.less s.effectiveLevelMap) keys) :=
      hc'.imp (fun a b hab => less_nameOrder _ a b hab.1 hab.2)
    haveI : IsTrans String (NameOrder s.effectiveLevelMap) :=
      ⟨fun _ _ _ h₁ h₂ => nameOrder_trans _ h₁ h₂⟩
    exact List.chain'_iff_pairwise.mp hc''

end slogsetter

/-! ## SetWithVal -/

namespace slogsetter

/-- C1: for a setter with a non-nil `Value` pointer `p` and a name `n` that is
a key of the effective map (`LevelMap` when it is non-nil, otherwise the
default map), `SetWithVal` returns a nil error, afterwards the level at `p` is
the map's value for `n`, and no other address of the store has changed;
whatever the first argument, the enumeration of the keys and the store
before the call. -/
theorem setWithVal_valid (c : Collab) (s : Level) (p : Nat) (name n : String)
    (keys : List String) (store : Store) (hv : s.Value = some p)
    (hn : n ∈ (s.LevelMap.getD dfltLevelMap).keys) :
    ∃ store', s.SetWithVal c name n keys store = Run.done none store' ∧
      some (store' p) = (s.LevelMap.getD dfltLevelMap).lookup n ∧
      ∀ q, q ≠ p → store' q = store q := by
  obtain ⟨v, lm⟩ := s
  simp only at hv
  subst hv
  have heff : (Level.mk (some p) lm).effectiveLevelMap = lm.getD dfltLevelMap := by
    cases lm <;> rfl
  have hsome : ((lm.getD dfltLevelMap).lookup n).isSome = true :=
    AList.lookup_isSome.mpr (AList.mem_keys.mpr hn)
  obtain ⟨lvl, hl⟩ := Option.isSome_iff_exists.mp hsome
  refine ⟨Function.update store p lvl, ?_, ?_, ?_⟩
  · simp only [Level.SetWithVal, heff]
    simp only [Option.getD] at hl ⊢
    rw [hl]
  · simp only [Option.getD] at hl ⊢
    rw [hl, Function.update_same]
  · intro q hq
    exact Function.update_noteq hq _ _

/-- Witness of C1: the name INFO on the default map. -/
theorem setWithVal_valid_witness :
    ∃ store', dfltSetter.SetWithVal plainCollab "" "INFO" [] (fun _ => 7)
        = Run.done none store' ∧
      some (store' 0) = (dfltSetter.LevelMap.getD dfltLevelMap).lookup "INFO" ∧
      ∀ q, q ≠ 0 → store' q = (fun _ => 7) q :=
  setWithVal_valid plainCollab dfltSetter 0 "" "INFO" [] (fun _ => 7) rfl (by decide)

/-- C2: for a name `n` that is not a key of the effective map, `SetWithVal`
returns a non-nil error and leaves the store, and so the target of `Value`,
as it was before the call. -/
theorem setWithVal_invalid (c : Collab) (s : Level) (p : Nat) (name n : String)
    (keys : List String) (store : Store) (hv : s.Value = some p)
    (hn : n ∉ (s.LevelMap.getD dfltLevelMap).keys) :
    ∃ msg store', s.SetWithVal c name n keys store = Run.done (some msg) store' ∧
      store' = store ∧ store' p = store p := by
  obtain ⟨v, lm⟩ := s
  simp only at hv
  subst hv
  have heff : (Level.mk (some p) lm).effectiveLevelMap = lm.getD dfltLevelMap := by
    cases lm <;> rfl
  have hnone : (lm.getD dfltLevelMap).lookup n = none :=
    AList.lookup_eq_none.mpr (fun h => hn (AList.mem_keys.mp h))
  refine ⟨"bad logging level name (" ++ c.quote n ++ ")" ++
    c.SuggestionString (c.SuggestedVals n keys), store, ?_, rfl, rfl⟩
  simp only [Level.SetWithVal, heff]
  simp only [Option.getD] at hnone ⊢
  rw [hnone]

/-- Witness of C2: the name blah on the default map. -/
theorem setWithVal_invalid_witness :
    ∃ msg store', dfltSetter.SetWithVal plainCollab "" "blah" [] (fun _ => 7)
        = Run.done (some msg) store' ∧
      store' = (fun _ => 7) ∧ store' 0 = (fun _ => 7) 0 :=
  setWithVal_invalid plainCollab dfltSetter 0 "" "blah" [] (fun _ => 7) rfl (by decide)

end slogsetter

/-! ## sortedLevelNames -/

namespace slogsetter

theorem earlier_of_pairwise {R : String → String → Prop} :
    ∀ (l : List String), l.Pairwise R → ∀ a b : String, a ∈ l → b ∈ l → a ≠ b → ¬ R b a →
      Earlier l a b
  | [], _, _, _, ha, _, _, _ => by cases ha
  | x :: xs, hp, a, b, ha, hb, hne, hR => by
    unfold Earlier
    rw [List.pairwise_cons] at hp
    by_cases hxa : x = a
    · have hxb : x ≠ b := fun h => hne (hxa.symm.trans h)
      rw [List.indexOf_cons_eq _ hxa, List.indexOf_cons_ne _ hxb]
      exact Nat.succ_pos _
    · have ha' : a ∈ xs := by
        rcases List.mem_cons.mp ha with h | h
        · exact absurd h.symm hxa
        · exact h
      by_cases hxb : x = b
      · exact absurd (hxb ▸ hp.1 a ha') hR
      · have hb' : b ∈ xs := by
          rcases List.mem_cons.mp hb with h | h
          · exact absurd h.symm hxb
          · exact h
        rw [List.indexOf_cons_ne _ hxa, List.indexOf_cons_ne _ hxb]
        exact Nat.succ_lt_succ (earlier_of_pairwise xs hp.2 a b ha' hb' hne hR)

/-- C7: `sortedLevelNames` returns a rearrangement of the keys of the
effective map, each key once and nothing else, in which the levels do not
decrease from left to right; for every routine in the place of `sort.Slice`
that meets `sort.SliceSorter` and every enumeration of the keys. -/
theorem sortedLevelNames_perm_nondecreasing
    (srt : (String → String → Bool) → List String → List String)
    (hsrt : sort.SliceSorter srt) (s : Level) (keys : List String)
    (hkeys : keys.Perm s.effectiveLevelMap.keys) :
    (s.sortedLevelNames srt keys).Perm s.effectiveLevelMap.keys ∧
    (s.sortedLevelNames srt keys).Nodup ∧
    ((s.sortedLevelNames srt keys).map s.effectiveLevelMap.at).Sorted (· ≤ ·) := by
  have hnd : keys.Nodup := hkeys.nodup_iff.mpr s.effectiveLevelMap.keys_nodup
  obtain ⟨hp, hpw⟩ := sortedLevelNames_spec srt hsrt s keys hnd
  refine ⟨hp.trans hkeys, hp.nodup_iff.mpr hnd, ?_⟩
  unfold List.Sorted
  rw [List.pairwise_map]
  exact hpw.imp (fun h => nameOrder_level _ h)

/-- Witness of C7: the map a: 42, b: 43, x: 43 enumerated as x, a, b. -/
theorem sortedLevelNames_perm_nondecreasing_witness :
    (abxSetter.sortedLevelNames sort.insertionSort_func ["x", "a", "b"]).Perm
      abxSetter.effectiveLevelMap.keys ∧
    (abxSetter.sortedLevelNames sort.insertionSort_func ["x", "a", "b"]).Nodup ∧
    ((abxSetter.sortedLevelNames sort.insertionSort_func ["x", "a", "b"]).map
      abxSetter.effectiveLevelMap.at).Sorted (· ≤ ·) :=
  sortedLevelNames_perm_nondecreasing sort.insertionSort_func
    sort.insertionSort_func_sliceSorter abxSetter ["x", "a", "b"] (by decide)

/-- C8: of two names of the effective map with equal level, one a key of the
package's default map and the other not, the one in the default map stands
earlier in the result of `sortedLevelNames`; the test is against
`dfltLevelMap`, whatever the effective map is. -/
theorem sortedLevelNames_default_first
    (srt : (String → String → Bool) → List String → List String)
    (hsrt : sort.SliceSorter srt) (s : Level) (keys : List String)
    (hkeys : keys.Perm s.effectiveLevelMap.keys) (a b : String)
    (ha : a ∈ s.effectiveLevelMap.keys) (hb : b ∈ s.effectiveLevelMap.keys)
    (hlevel : s.effectiveLevelMap.at a = s.effectiveLevelMap.at b)
    (hda : a ∈ dfltLevelMap.keys) (hdb : b ∉ dfltLevelMap.keys) :
    Earlier (s.sortedLevelNames srt keys) a b := by
  have hnd : keys.Nodup := hkeys.nodup_iff.mpr s.effectiveLevelMap.keys_nodup
  obtain ⟨hp, hpw⟩ := sortedLevelNames_spec srt hsrt s keys hnd
  have hda' : (dfltLevelMap.lookup a).isSome = true :=
    AList.lookup_isSome.mpr (AList.mem_keys.mpr hda)
  have hdb' : (dfltLevelMap.lookup b).isSome = false := by
    rw [AList.lookup_eq_none.mpr (fun h => hdb (AList.mem_keys.mp h))]
    rfl
  refine earlier_of_pairwise _ hpw a b ((hp.trans hkeys).mem_iff.mpr ha)
    ((hp.trans hkeys).mem_iff.mpr hb) ?_ ?_
  · intro hab
    rw [hab] at hda
    exact hdb hda
  · intro hR
    rcases hR with hlt | ⟨-, hd | ⟨hd, -⟩⟩
    · rw [hlevel] at hlt
      exact lt_irrefl _ hlt
    · rw [hdb'] at hd
      cases hd
    · rw [hda'] at hd
      cases hd

/-- Witness of C8: in the default map with aliases added, INFO stands before
its alias a. -/
theorem sortedLevelNames_default_first_witness :
    Earlier (dupsSetter.sortedLevelNames sort.insertionSort_func
      ["a", "b", "c", "d", "aPlusOne", "ERROR", "WARN", "INFO", "DEBUG"]) "INFO" "a" :=
  sortedLevelNames_default_first sort.insertionSort_func
    sort.insertionSort_func_sliceSorter dupsSetter
    ["a", "b", "c", "d", "aPlusOne", "ERROR", "WARN", "INFO", "DEBUG"] (by decide)
    "INFO" "a" (by decide) (by decide) (by decide) (by decide) (by decide)

end slogsetter

/-! ## The walks over the sorted names -/

namespace slogsetter

theorem wrap_pred_ne (l : Int) : slog.wrap (l - 1) ≠ l := by
  unfold slog.wrap
  omega

theorem walkKept_sublist (m : LevelMap) :
    ∀ (l : List String) (last : slog.Level), (walkKept m last l).Sublist l
  | [], _ => List.Sublist.slnil
  | name :: rest, last => by
    simp only [walkKept]
    split
    · exact (walkKept_sublist m rest _).cons₂ _
    · exact (walkKept_sublist m rest _).cons _

theorem walkSkipped_sublist (m : LevelMap) :
    ∀ (l : List String) (last : slog.Level), (walkSkipped m last l).Sublist l
  | [], _ => List.Sublist.slnil
  | name :: rest, last => by
    simp only [walkSkipped]
    split
    · exact (walkSkipped_sublist m rest _).cons _
    · exact (walkSkipped_sublist m rest _).cons₂ _

theorem walk_length (m : LevelMap) :
    ∀ (l : List String) (last : slog.Level),
      (walkKept m last l).length + (walkSkipped m last l).length = l.length
  | [], _ => rfl
  | name :: rest, last => by
    have ih := walk_length m rest (m.at name)
    simp only [walkKept, walkSkipped]
    split <;> simp only [List.length_cons] <;> omega

theorem walkKept_increasing (m : LevelMap) :
    ∀ (l : List String) (last : slog.Level),
      l.Pairwise (fun a b => m.at a ≤ m.at b) → (∀ x ∈ l, last ≤ m.at x) →
      (walkKept m last l).Pairwise (fun a b => m.at a < m.at b) ∧
      ∀ x ∈ walkKept m last l, last < m.at x
  | [], _, _, _ => ⟨List.Pairwise.nil, fun _ h => by cases h⟩
  | name :: rest, last, hpw, hlo => by
    rw [List.pairwise_cons] at hpw
    obtain ⟨ih₁, ih₂⟩ := walkKept_increasing m rest (m.at name) hpw.2 hpw.1
    have hle : last ≤ m.at name := hlo name (List.mem_cons_self _ _)
    simp only [walkKept]
    split
    · next hne =>
      have hlt : last < m.at name := lt_of_le_of_ne hle (fun h => hne h.symm)
      refine ⟨List.pairwise_cons.mpr ⟨ih₂, ih₁⟩, ?_⟩
      intro x hx
      rcases List.mem_cons.mp hx with h | h
      · rw [h]; exact hlt
      · exact lt_trans hlt (ih₂ x h)
    · next heq =>
      have heq' : m.at name = last := by simpa using heq
      rw [heq'] at ih₁ ih₂ ⊢
      exact ⟨ih₁, ih₂⟩

theorem walkKept_covers (m : LevelMap) :
    ∀ (l : List String) (last : slog.Level) (x : String), x ∈ l →
      m.at x = last ∨ ∃ y ∈ walkKept m last l, m.at y = m.at x
  | [], _, _, hx => by cases hx
  | name :: rest, last, x, hx => by
    simp only [walkKept]
    by_cases hne : m.at name ≠ last
    · rw [if_pos hne]
      right
      rcases List.mem_cons.mp hx with h | h
      · exact ⟨name, List.mem_cons_self _ _, by rw [h]⟩
      · rcases walkKept_covers m rest (m.at name) x h with h' | ⟨y, hy, hy'⟩
        · exact ⟨name, List.mem_cons_self _ _, h'.symm⟩
        · exact ⟨y, List.mem_cons_of_mem _ hy, hy'⟩
    · rw [if_neg hne]
      have heq : m.at name = last := by simpa using hne
      rcases List.mem_cons.mp hx with h | h
      · left; rw [h]; exact heq
      · rcases walkKept_covers m rest (m.at name) x h with h' | h'
        · left; rw [h']; exact heq
        · right; exact h'

theorem walkKept_start (m : LevelMap) (first : String) (rest : List String) :
    walkKept m (walkStart m (first :: rest)) (first :: rest)
      = first :: walkKept m (m.at first) rest := by
  simp only [walkKept, walkStart]
  rw [if_pos (fun h => wrap_pred_ne _ h.symm)]

theorem walkSkipped_start (m : LevelMap) (first : String) (rest : List String) :
    walkSkipped m (walkStart m (first :: rest)) (first :: rest)
      = walkSkipped m (m.at first) rest := by
  simp only [walkSkipped, walkStart]
  rw [if_pos (fun h => wrap_pred_ne _ h.symm)]

/-- On a sequence of distinct names with non-decreasing levels the kept names
have pairwise different levels, and every level of the sequence is the level
of a kept name. -/
theorem walkKept_sorted (m : LevelMap) (names : List String)
    (hpw : names.Pairwise (fun a b => m.at a ≤ m.at b)) :
    ((walkKept m (walkStart m names) names).map m.at).Nodup ∧
    ∀ x ∈ names, ∃ y ∈ walkKept m (walkStart m names) names, m.at y = m.at x := by
  cases names with
  | nil => exact ⟨List.nodup_nil, fun _ h => by cases h⟩
  | cons first rest =>
    rw [walkKept_start]
    rw [List.pairwise_cons] at hpw
    obtain ⟨h₁, h₂⟩ := walkKept_increasing m rest (m.at first) hpw.2 hpw.1
    constructor
    · have hlt : (first :: walkKept m (m.at first) rest).Pairwise
          (fun a b => m.at a < m.at b) := List.pairwise_cons.mpr ⟨h₂, h₁⟩
      unfold List.Nodup
      rw [List.pairwise_map]
      exact hlt.imp (fun h => ne_of_lt h)
    · intro x hx
      rcases List.mem_cons.mp hx with h | h
      · exact ⟨first, List.mem_cons_self _ _, by rw [h]⟩
      · rcases walkKept_covers m rest (m.at first) x h with h' | ⟨y, hy, hy'⟩
        · exact ⟨first, List.mem_cons_self _ _, h'.symm⟩
        · exact ⟨y, List.mem_cons_of_mem _ hy, hy'⟩

theorem avm_loop_lookup (m : LevelMap) :
    ∀ (l : List String) (avm : AllowedVals) (last : slog.Level) (k : String),
      (AllowedValuesMap.loop m l avm last).lookup k
        = if k ∈ walkKept m last l then some (slog.Level.String (m.at k)) else avm.lookup k
  | [], avm, last, k => by simp [AllowedValuesMap.loop, walkKept]
  | name :: rest, avm, last, k => by
    by_cases hne : m.at name ≠ last
    · simp only [AllowedValuesMap.loop, walkKept, if_pos hne]
      rw [avm_loop_lookup m rest]
      by_cases hk : k ∈ walkKept m (m.at name) rest
      · rw [if_pos hk, if_pos (List.mem_cons_of_mem _ hk)]
      · rw [if_neg hk]
        by_cases hkn : k = name
        · subst hkn
          rw [if_pos (List.mem_cons_self _ _), AList.lookup_insert]
        · rw [AList.lookup_insert_ne hkn, if_neg]
          intro hmem
          rcases List.mem_cons.mp hmem with h | h
          · exact hkn h
          · exact hk h
    · simp only [AllowedValuesMap.loop, walkKept, if_neg hne]
      rw [avm_loop_lookup m rest]

theorem avam_loop_mem (m : LevelMap) :
    ∀ (l : List String) (avam : Aliases) (last : slog.Level) (aliasTo k : String),
      k ∈ AllowedValuesAliasMap.loop m l avam last aliasTo
        ↔ k ∈ walkSkipped m last l ∨ k ∈ avam
  | [], avam, last, aliasTo, k => by simp [AllowedValuesAliasMap.loop, walkSkipped]
  | name :: rest, avam, last, aliasTo, k => by
    by_cases hne : m.at name ≠ last
    · simp only [AllowedValuesAliasMap.loop, walkSkipped, if_pos hne]
      exact avam_loop_mem m rest avam _ _ k
    · simp only [AllowedValuesAliasMap.loop, walkSkipped, if_neg hne]
      rw [avam_loop_mem m rest, AList.mem_insert, List.mem_cons]
      tauto

theorem allowedValuesMap_lookup (srt : (String → String → Bool) → List String → List String)
    (s : Level) (keys : List String) (k : String) :
    (s.AllowedValuesMap srt keys).lookup k
      = if k ∈ walkKept s.effectiveLevelMap
            (walkStart s.effectiveLevelMap (s.sortedLevelNames srt keys))
            (s.sortedLevelNames srt keys)
        then some (slog.Level.String (s.effectiveLevelMap.at k)) else none := by
  unfold Level.AllowedValuesMap
  simp only
  cases hnames : s.sortedLevelNames srt keys with
  | nil => simp [walkKept]
  | cons first rest =>
    simp only
    rw [avm_loop_lookup]
    simp [walkStart]

theorem allowedValuesMap_keys (srt : (String → String → Bool) → List String → List String)
    (s : Level) (keys : List String) (hnd : (s.sortedLevelNames srt keys).Nodup) :
    (s.AllowedValuesMap srt keys).keys.Perm
      (walkKept s.effectiveLevelMap
        (walkStart s.effectiveLevelMap (s.sortedLevelNames srt keys))
        (s.sortedLevelNames srt keys)) := by
  rw [List.perm_ext_iff_of_nodup (AList.keys_nodup _) ((walkKept_sublist _ _ _).nodup hnd)]
  intro k
  rw [← AList.mem_keys, ← AList.lookup_isSome, allowedValuesMap_lookup]
  split <;> simp_all

theorem allowedValuesAliasMap_keys
    (srt : (String → String → Bool) → List String → List String)
    (s : Level) (keys : List String) (hnd : (s.sortedLevelNames srt keys).Nodup) :
    (s.AllowedValuesAliasMap srt keys).keys.Perm
      (walkSkipped s.effectiveLevelMap
        (walkStart s.effectiveLevelMap (s.sortedLevelNames srt keys))
        (s.sortedLevelNames srt keys)) := by
  rw [List.perm_ext_iff_of_nodup (AList.keys_nodup _) ((walkSkipped_sublist _ _ _).nodup hnd)]
  intro k
  rw [← AList.mem_keys]
  unfold Level.AllowedValuesAliasMap
  simp only
  cases hnames : s.sortedLevelNames srt keys with
  | nil => simp [walkSkipped]
  | cons first rest =>
    simp only
    rw [avam_loop_mem]
    simp [walkStart]

end slogsetter

/-! ## AllowedValuesMap and AllowedValuesAliasMap -/

namespace slogsetter

theorem sortedLevelNames_levels (srt : (String → String → Bool) → List String → List String)
    (hsrt : sort.SliceSorter srt) (s : Level) (keys : List String)
    (hkeys : keys.Perm s.effectiveLevelMap.keys) :
    (s.sortedLevelNames srt keys).Perm s.effectiveLevelMap.keys ∧
    (s.sortedLevelNames srt keys).Nodup ∧
    (s.sortedLevelNames srt keys).Pairwise
      (fun a b => s.effectiveLevelMap.at a ≤ s.effectiveLevelMap.at b) := by
  have hnd : keys.Nodup := hkeys.nodup_iff.mpr s.effectiveLevelMap.keys_nodup
  obtain ⟨hp, hpw⟩ := sortedLevelNames_spec srt hsrt s keys hnd
  exact ⟨hp.trans hkeys, hp.nodup_iff.mpr hnd, hpw.imp (fun h => nameOrder_level _ h)⟩

theorem walkKept_length_distinct (m : LevelMap) (names : List String)
    (hperm : names.Perm m.keys)
    (hpw : names.Pairwise (fun a b => m.at a ≤ m.at b)) :
    (walkKept m (walkStart m names) names).length = m.distinctLevels := by
  obtain ⟨hnd, hcov⟩ := walkKept_sorted m names hpw
  have hset : ((walkKept m (walkStart m names) names).map m.at).toFinset
      = (m.keys.map m.at).toFinset := by
    ext v
    simp only [List.mem_toFinset, List.mem_map]
    constructor
    · rintro ⟨y, hy, rfl⟩
      exact ⟨y, hperm.mem_iff.mp ((walkKept_sublist m names _).subset hy), rfl⟩
    · rintro ⟨x, hx, rfl⟩
      obtain ⟨y, hy, hyx⟩ := hcov x (hperm.mem_iff.mpr hx)
      exact ⟨y, hy, hyx⟩
  unfold LevelMap.distinctLevels
  rw [← List.card_toFinset, ← hset, List.toFinset_card_of_nodup hnd, List.length_map]

/-- C3: for every effective map, the empty one included, `AllowedValuesMap`
has one entry for each distinct level of the effective map: the number of its
entries is the number of distinct levels, every key is a key of the effective
map and is stored with the `String()` of its level, no two keys have the same
level, and every level of the effective map is the level of a key. -/
theorem allowedValuesMap_one_per_level
    (srt : (String → String → Bool) → List String → List String)
    (hsrt : sort.SliceSorter srt) (s : Level) (keys : List String)
    (hkeys : keys.Perm s.effectiveLevelMap.keys) :
    (s.AllowedValuesMap srt keys).keys.length = s.effectiveLevelMap.distinctLevels ∧
    (∀ k ∈ (s.AllowedValuesMap srt keys).keys,
      k ∈ s.effectiveLevelMap.keys ∧
      (s.AllowedValuesMap srt keys).lookup k
        = some (slog.Level.String (s.effectiveLevelMap.at k))) ∧
    (∀ k₁ ∈ (s.AllowedValuesMap srt keys).keys, ∀ k₂ ∈ (s.AllowedValuesMap srt keys).keys,
      s.effectiveLevelMap.at k₁ = s.effectiveLevelMap.at k₂ → k₁ = k₂) ∧
    (∀ n ∈ s.effectiveLevelMap.keys, ∃ k ∈ (s.AllowedValuesMap srt keys).keys,
      s.effectiveLevelMap.at k = s.effectiveLevelMap.at n) := by
  obtain ⟨hperm, hnd, hpw⟩ := sortedLevelNames_levels srt hsrt s keys hkeys
  have hk := allowedValuesMap_keys srt s keys hnd
  obtain ⟨hinj, hcov⟩ := walkKept_sorted s.effectiveLevelMap _ hpw
  refine ⟨?_, ?_, ?_, ?_⟩
  · rw [hk.length_eq]
    exact walkKept_length_distinct _ _ hperm hpw
  · intro k hkmem
    have hkept := hk.mem_iff.mp hkmem
    refine ⟨hperm.mem_iff.mp ((walkKept_sublist _ _ _).subset hkept), ?_⟩
    rw [allowedValuesMap_lookup, if_pos hkept]
  · intro k₁ h₁ k₂ h₂ heq
    exact List.inj_on_of_nodup_map hinj (hk.mem_iff.mp h₁) (hk.mem_iff.mp h₂) heq
  · intro n hn
    obtain ⟨y, hy, hyn⟩ := hcov n (hperm.mem_iff.mpr hn)
    exact ⟨y, hk.mem_iff.mpr hy, hyn⟩

/-- Witness of C3: the map a: 42, b: 43, x: 43 enumerated as x, a, b. -/
theorem allowedValuesMap_one_per_level_witness :
    (abxSetter.AllowedValuesMap sort.insertionSort_func ["x", "a", "b"]).keys.length
      = abxSetter.effectiveLevelMap.distinctLevels ∧
    (∀ k ∈ (abxSetter.AllowedValuesMap sort.insertionSort_func ["x", "a", "b"]).keys,
      k ∈ abxSetter.effectiveLevelMap.keys ∧
      (abxSetter.AllowedValuesMap sort.insertionSort_func ["x", "a", "b"]).lookup k
        = some (slog.Level.String (abxSetter.effectiveLevelMap.at k))) ∧
    (∀ k₁ ∈ (abxSetter.AllowedValuesMap sort.insertionSort_func ["x", "a", "b"]).keys,
      ∀ k₂ ∈ (abxSetter.AllowedValuesMap sort.insertionSort_func ["x", "a", "b"]).keys,
      abxSetter.effectiveLevelMap.at k₁ = abxSetter.effectiveLevelMap.at k₂ → k₁ = k₂) ∧
    (∀ n ∈ abxSetter.effectiveLevelMap.keys,
      ∃ k ∈ (abxSetter.AllowedValuesMap sort.insertionSort_func ["x", "a", "b"]).keys,
      abxSetter.effectiveLevelMap.at k = abxSetter.effectiveLevelMap.at n) :=
  allowedValuesMap_one_per_level sort.insertionSort_func
    sort.insertionSort_func_sliceSorter abxSetter ["x", "a", "b"] (by decide)

/-- C4: for every effective map, the number of entries of
`AllowedValuesAliasMap` is the number of entries of the effective map minus
the number of its distinct levels; so the alias map is empty when the levels
of the effective map are all distinct, and when the map is empty. -/
theorem allowedValuesAliasMap_size
    (srt : (String → String → Bool) → List String → List String)
    (hsrt : sort.SliceSorter srt) (s : Level) (keys : List String)
    (hkeys : keys.Perm s.effectiveLevelMap.keys) :
    (s.AllowedValuesAliasMap srt keys).keys.length
      = s.effectiveLevelMap.keys.length - s.effectiveLevelMap.distinctLevels ∧
    s.effectiveLevelMap.distinctLevels ≤ s.effectiveLevelMap.keys.length ∧
    (s.effectiveLevelMap.distinctLevels = s.effectiveLevelMap.keys.length →
      (s.AllowedValuesAliasMap srt keys).keys = []) := by
  obtain ⟨hperm, hnd, hpw⟩ := sortedLevelNames_levels srt hsrt s keys hkeys
  have hk := (allowedValuesAliasMap_keys srt s keys hnd).length_eq
  have hd := walkKept_length_distinct _ _ hperm hpw
  have hl := walk_length s.effectiveLevelMap (s.sortedLevelNames srt keys)
    (walkStart s.effectiveLevelMap (s.sortedLevelNames srt keys))
  have hlen := hperm.length_eq
  refine ⟨by omega, by omega, ?_⟩
  intro heq
  exact List.length_eq_zero.mp (by omega)

/-- Witness of C4: the map a: 42, b: 43, x: 43 enumerated as b, x, a. -/
theorem allowedValuesAliasMap_size_witness :
    (abxSetter.AllowedValuesAliasMap sort.insertionSort_func ["b", "x", "a"]).keys.length
      = abxSetter.effectiveLevelMap.keys.length - abxSetter.effectiveLevelMap.distinctLevels ∧
    abxSetter.effectiveLevelMap.distinctLevels ≤ abxSetter.effectiveLevelMap.keys.length ∧
    (abxSetter.effectiveLevelMap.distinctLevels = abxSetter.effectiveLevelMap.keys.length →
      (abxSetter.AllowedValuesAliasMap sort.insertionSort_func ["b", "x", "a"]).keys = []) :=
  allowedValuesAliasMap_size sort.insertionSort_func
    sort.insertionSort_func_sliceSorter abxSetter ["b", "x", "a"] (by decide)

end slogsetter

/-! ## Two default names with the same level

The closure of `sortedLevelNames` answers `true` as soon as its first name is
a key of `dfltLevelMap`, without looking at the second.  For two default
names of equal level it therefore answers `true` in both directions, and
`sort.Slice`, which on two elements asks `less(1, 0)` once and swaps on
`true`, returns them in the reverse of the order in which the map enumerated
them. -/

namespace slogsetter

/-- C5: on the map DEBUG: INFO, INFO: INFO, when the keys are enumerated as
DEBUG, INFO for `AllowedValuesMap` and as INFO, DEBUG for
`AllowedValuesAliasMap`, the alias map holds the entry INFO -> [DEBUG] while
the only key of the allowed-values map is INFO: the target DEBUG of the alias
is not a key of `AllowedValuesMap`. -/
theorem aliasTarget_not_allowedValue_on_tiedMap :
    ["DEBUG", "INFO"].Perm tiedSetter.effectiveLevelMap.keys ∧
    ["INFO", "DEBUG"].Perm tiedSetter.effectiveLevelMap.keys ∧
    (tiedSetter.AllowedValuesAliasMap sort.insertionSort_func ["INFO", "DEBUG"]).lookup "INFO"
      = some ["DEBUG"] ∧
    (tiedSetter.AllowedValuesMap sort.insertionSort_func ["DEBUG", "INFO"]).keys = ["INFO"] ∧
    "DEBUG" ∉ (tiedSetter.AllowedValuesMap sort.insertionSort_func ["DEBUG", "INFO"]).keys := by
  decide

/-- C6: on the map DEBUG: INFO, INFO: INFO with the keys enumerated as DEBUG,
INFO, the key of `AllowedValuesMap` for the level INFO is INFO, although
DEBUG is a key of the default map too, has the same level and is
alphabetically before INFO. -/
theorem canonicalName_not_smallest_on_tiedMap :
    ["DEBUG", "INFO"].Perm tiedSetter.effectiveLevelMap.keys ∧
    (tiedSetter.AllowedValuesMap sort.insertionSort_func ["DEBUG", "INFO"]).entries
      = [⟨"INFO", "INFO"⟩] ∧
    "DEBUG" ∈ dfltLevelMap.keys ∧ "INFO" ∈ dfltLevelMap.keys ∧
    tiedSetter.effectiveLevelMap.at "DEBUG" = tiedSetter.effectiveLevelMap.at "INFO" ∧
    strLess "DEBUG" "INFO" = true := by
  decide

/-- C9: on the map DEBUG: INFO, INFO: INFO with the keys enumerated as DEBUG,
INFO, `sortedLevelNames` returns INFO, DEBUG: two names of equal level that
are both keys of the default map, with the alphabetically greater one first. -/
theorem sortedLevelNames_not_alphabetic_on_tiedMap :
    ["DEBUG", "INFO"].Perm tiedSetter.effectiveLevelMap.keys ∧
    tiedSetter.sortedLevelNames sort.insertionSort_func ["DEBUG", "INFO"] = ["INFO", "DEBUG"] ∧
    Earlier (tiedSetter.sortedLevelNames sort.insertionSort_func ["DEBUG", "INFO"])
      "INFO" "DEBUG" ∧
    "DEBUG" ∈ dfltLevelMap.keys ∧ "INFO" ∈ dfltLevelMap.keys ∧
    tiedSetter.effectiveLevelMap.at "DEBUG" = tiedSetter.effectiveLevelMap.at "INFO" ∧
    strLess "DEBUG" "INFO" = true := by
  decide

/-- C10: on the map DEBUG: INFO, INFO: INFO the two enumerations of the keys
give two different results of `sortedLevelNames`, and with them two different
allowed-values maps and two different alias maps. -/
theorem sortedLevelNames_follows_enumeration_on_tiedMap :
    ["DEBUG", "INFO"].Perm tiedSetter.effectiveLevelMap.keys ∧
    ["INFO", "DEBUG"].Perm tiedSetter.effectiveLevelMap.keys ∧
    tiedSetter.sortedLevelNames sort.insertionSort_func ["DEBUG", "INFO"] = ["INFO", "DEBUG"] ∧
    tiedSetter.sortedLevelNames sort.insertionSort_func ["INFO", "DEBUG"] = ["DEBUG", "INFO"] ∧
    (tiedSetter.AllowedValuesMap sort.insertionSort_func ["DEBUG", "INFO"]).keys = ["INFO"] ∧
    (tiedSetter.AllowedValuesMap sort.insertionSort_func ["INFO", "DEBUG"]).keys = ["DEBUG"] ∧
    (tiedSetter.AllowedValuesAliasMap sort.insertionSort_func ["DEBUG", "INFO"]).entries
      = [⟨"DEBUG", ["INFO"]⟩] ∧
    (tiedSetter.AllowedValuesAliasMap sort.insertionSort_func ["INFO", "DEBUG"]).entries
      = [⟨"INFO", ["DEBUG"]⟩] := by
  decide

end slogsetter

/-! ## Where the alphabetical tie-break does hold -/

namespace slogsetter

/-- Of two names of the effective map with equal level that are both outside
the default map, the alphabetically smaller one stands earlier. -/
theorem sortedLevelNames_alphabetic_outside_default
    (srt : (String → String → Bool) → List String → List String)
    (hsrt : sort.SliceSorter srt) (s : Level) (keys : List String)
    (hkeys : keys.Perm s.effectiveLevelMap.keys) (a b : String)
    (ha : a ∈ s.effectiveLevelMap.keys) (hb : b ∈ s.effectiveLevelMap.keys)
    (hlevel : s.effectiveLevelMap.at a = s.effectiveLevelMap.at b)
    (hdb : b ∉ dfltLevelMap.keys) (hlt : strLess a b = true) :
    Earlier (s.sortedLevelNames srt keys) a b := by
  have hnd : keys.Nodup := hkeys.nodup_iff.mpr s.effectiveLevelMap.keys_nodup
  obtain ⟨hp, hpw⟩ := sortedLevelNames_spec srt hsrt s keys hnd
  have hdb' : (dfltLevelMap.lookup b).isSome = false := by
    rw [AList.lookup_eq_none.mpr (fun h => hdb (AList.mem_keys.mp h))]
    rfl
  refine earlier_of_pairwise _ hpw a b ((hp.trans hkeys).mem_iff.mpr ha)
    ((hp.trans hkeys).mem_iff.mpr hb) ?_ ?_
  · intro hab
    rw [hab, strLess_irrefl] at hlt
    cases hlt
  · intro hR
    rcases hR with h | ⟨-, hd | ⟨-, hba⟩⟩
    · rw [hlevel] at h
      exact lt_irrefl _ h
    · rw [hdb'] at hd
      cases hd
    · rw [strLess_asymm hlt] at hba
      cases hba

theorem nameOrder_antisymm (m : LevelMap) (hm : Untied m) {a b : String}
    (ha : a ∈ m.keys) (hb : b ∈ m.keys)
    (hab : NameOrder m a b) (hba : NameOrder m b a) : a = b := by
  rcases hab with h₁ | ⟨e₁, h₁⟩
  · rcases hba with h₂ | ⟨e₂, -⟩
    · exact absurd h₁ (not_lt.mpr (le_of_lt h₂))
    · rw [e₂] at h₁
      exact absurd h₁ (lt_irrefl _)
  · rcases hba with h₂ | ⟨-, h₂⟩
    · rw [e₁] at h₂
      exact absurd h₂ (lt_irrefl _)
    · rcases h₁ with da | ⟨ndb, lab⟩
      · rcases h₂ with db | ⟨nda, -⟩
        · exact hm a ha b hb (AList.mem_keys.mp (AList.lookup_isSome.mp da))
            (AList.mem_keys.mp (AList.lookup_isSome.mp db)) e₁
        · rw [da] at nda
          cases nda
      · rcases h₂ with db | ⟨-, lba⟩
        · rw [db] at ndb
          cases ndb
        · rw [strLess_asymm lab] at lba
          cases lba

/-- On a map without two default names of equal level the result of
`sortedLevelNames` is the same for every enumeration of the keys and every
routine that meets `sort.SliceSorter`. -/
theorem sortedLevelNames_unique_of_untied
    (srt₁ srt₂ : (String → String → Bool) → List String → List String)
    (h₁ : sort.SliceSorter srt₁) (h₂ : sort.SliceSorter srt₂) (s : Level)
    (hm : Untied s.effectiveLevelMap) (keys₁ keys₂ : List String)
    (hk₁ : keys₁.Perm s.effectiveLevelMap.keys) (hk₂ : keys₂.Perm s.effectiveLevelMap.keys) :
    s.sortedLevelNames srt₁ keys₁ = s.sortedLevelNames srt₂ keys₂ := by
  have hnd₁ : keys₁.Nodup := hk₁.nodup_iff.mpr s.effectiveLevelMap.keys_nodup
  have hnd₂ : keys₂.Nodup := hk₂.nodup_iff.mpr s.effectiveLevelMap.keys_nodup
  obtain ⟨hp₁, hpw₁⟩ := sortedLevelNames_spec srt₁ h₁ s keys₁ hnd₁
  obtain ⟨hp₂, hpw₂⟩ := sortedLevelNames_spec srt₂ h₂ s keys₂ hnd₂
  have hin : ∀ (l : List String), l.Perm s.effectiveLevelMap.keys →
      l.Pairwise (NameOrder s.effectiveLevelMap) →
      l.Pairwise (fun a b => (a ∈ s.effectiveLevelMap.keys ∧ b ∈ s.effectiveLevelMap.keys) ∧
        NameOrder s.effectiveLevelMap a b) := by
    intro l hl hpw
    rw [List.Pairwise.and_mem] at hpw
    exact hpw.imp (fun h => ⟨⟨hl.mem_iff.mp h.1, hl.mem_iff.mp h.2.1⟩, h.2.2⟩)
  haveI : IsAntisymm String
      (fun a b => (a ∈ s.effectiveLevelMap.keys ∧ b ∈ s.effectiveLevelMap.keys) ∧
        NameOrder s.effectiveLevelMap a b) :=
    ⟨fun _ _ hab hba => nameOrder_antisymm _ hm hab.1.1 hab.1.2 hab.2 hba.2⟩
  exact List.eq_of_perm_of_sorted ((hp₁.trans hk₁).trans (hp₂.trans hk₂).symm)
    (hin _ (hp₁.trans hk₁) hpw₁) (hin _ (hp₂.trans hk₂) hpw₂)

end slogsetter

/-! ## effectiveLevelMap and CheckSetter -/

namespace slogsetter

/-- C15: `effectiveLevelMap` returns the setter's `LevelMap` when it is
non-nil, also when it is empty, and the default map when it is nil; it is a
function of the setter alone and stores nothing. -/
theorem effectiveLevelMap_spec (v : Option Nat) (m : LevelMap) :
    (Level.mk v (some m)).effectiveLevelMap = m ∧
    (Level.mk v (some ∅)).effectiveLevelMap = ∅ ∧
    (Level.mk v none).effectiveLevelMap = dfltLevelMap ∧
    ∀ s : Level, s.effectiveLevelMap = s.LevelMap.getD dfltLevelMap :=
  ⟨rfl, rfl, rfl, fun s => by cases s with | mk v lm => cases lm <;> rfl⟩

theorem checkSetter_eq (s : Level) (name : String) :
    s.CheckSetter name =
      if s.Value = none then
        some (name ++ ": slogsetter.Level Check failed: the Value to be set is nil")
      else if s.effectiveLevelMap.keys.length = 0 then
        some (name ++ ": slogsetter.Level Check failed: a LevelMap has been set but it is empty")
      else if s.effectiveLevelMap.keys.length = 1 then
        some (name ++
          ": slogsetter.Level Check failed: a LevelMap has been set but it has only one entry")
      else none := by
  obtain ⟨v, lm⟩ := s
  cases v with
  | none =>
    simp only [Level.CheckSetter, if_true, String.append_assoc]
    rfl
  | some p =>
    simp only [Level.CheckSetter, reduceCtorEq, if_false, String.append_assoc]
    split
    · rfl
    · split
      · rfl
      · rfl

/-- C11: `CheckSetter` panics exactly when `Value` is nil or the effective
map has fewer than two entries; it does not panic when `Value` is non-nil and
`LevelMap` is nil, the default map then being used, nor when `Value` is
non-nil and the effective map has two or more entries. -/
theorem checkSetter_panics_iff (s : Level) (name : String) :
    ((s.CheckSetter name).isSome = true ↔
      (s.Value = none ∨ s.effectiveLevelMap.keys.length < 2)) ∧
    (∀ p : Nat, (Level.mk (some p) none).CheckSetter name = none) ∧
    (s.Value ≠ none → 2 ≤ s.effectiveLevelMap.keys.length → s.CheckSetter name = none) := by
  refine ⟨?_, ?_, ?_⟩
  · rw [checkSetter_eq]
    by_cases hv : s.Value = none
    · simp [hv]
    · simp only [hv, if_false, false_or]
      by_cases h0 : s.effectiveLevelMap.keys.length = 0
      · simp [h0]
      · by_cases h1 : s.effectiveLevelMap.keys.length = 1
        · simp [h1]
        · simp only [h0, h1, if_false, Option.isSome_none, Bool.false_eq_true, false_iff]
          omega
  · intro p
    rfl
  · intro hv hlen
    rw [checkSetter_eq, if_neg hv, if_neg (by omega), if_neg (by omega)]

/-- Witness of C11: a nil `Value` panics, the default map with a `Value` does not. -/
theorem checkSetter_panics_iff_witness :
    ((Level.mk none none).CheckSetter "setterName").isSome = true ∧
    dfltSetter.CheckSetter "setterName" = none :=
  ⟨((checkSetter_panics_iff ⟨none, none⟩ "setterName").1).mpr (Or.inl rfl),
   (checkSetter_panics_iff dfltSetter "setterName").2.2 (by decide) (by decide)⟩

/-- C18: the panic value of `CheckSetter(name)` is `name` followed by
": slogsetter.Level Check failed:" and the condition that is not met.  The
test of `Value` comes first: with a nil `Value` the value ends in
" the Value to be set is nil" whatever the map is; otherwise an empty
effective map gives " a LevelMap has been set but it is empty" and a map of
one entry " a LevelMap has been set but it has only one entry"; there is no
other panic value. -/
theorem checkSetter_panic_value (s : Level) (name : String) :
    (s.Value = none → s.CheckSetter name =
      some (name ++ ": slogsetter.Level Check failed: the Value to be set is nil")) ∧
    (s.Value ≠ none → s.effectiveLevelMap.keys.length = 0 → s.CheckSetter name =
      some (name ++
        ": slogsetter.Level Check failed: a LevelMap has been set but it is empty")) ∧
    (s.Value ≠ none → s.effectiveLevelMap.keys.length = 1 → s.CheckSetter name =
      some (name ++
        ": slogsetter.Level Check failed: a LevelMap has been set but it has only one entry")) ∧
    (∀ msg, s.CheckSetter name = some msg →
      msg = name ++ ": slogsetter.Level Check failed: the Value to be set is nil" ∨
      msg = name ++
        ": slogsetter.Level Check failed: a LevelMap has been set but it is empty" ∨
      msg = name ++
        ": slogsetter.Level Check failed: a LevelMap has been set but it has only one entry") := by
  refine ⟨?_, ?_, ?_, ?_⟩
  · intro hv
    rw [checkSetter_eq, if_pos hv]
  · intro hv h0
    rw [checkSetter_eq, if_neg hv, if_pos h0]
  · intro hv h1
    rw [checkSetter_eq, if_neg hv, if_neg (by omega), if_pos h1]
  · intro msg hmsg
    rw [checkSetter_eq] at hmsg
    split at hmsg
    · exact Or.inl (Option.some.inj hmsg).symm
    · split at hmsg
      · exact Or.inr (Or.inl (Option.some.inj hmsg).symm)
      · split at hmsg
        · exact Or.inr (Or.inr (Option.some.inj hmsg).symm)
        · cases hmsg

/-- Witness of C18: the three panics of `TestLevelCheckSetter`. -/
theorem checkSetter_panic_value_witness :
    (Level.mk none none).CheckSetter "setterName" =
      some "setterName: slogsetter.Level Check failed: the Value to be set is nil" ∧
    (Level.mk (some 0) (some ∅)).CheckSetter "setterName" =
      some "setterName: slogsetter.Level Check failed: a LevelMap has been set but it is empty" ∧
    (Level.mk (some 0) (some (AList.singleton "a" slog.LevelInfo))).CheckSetter "setterName" =
      some ("setterName: slogsetter.Level Check failed: " ++
        "a LevelMap has been set but it has only one entry") :=
  ⟨(checkSetter_panic_value ⟨none, none⟩ "setterName").1 rfl,
   (checkSetter_panic_value ⟨some 0, some ∅⟩ "setterName").2.1 (by decide) (by decide),
   (checkSetter_panic_value ⟨some 0, some (AList.singleton "a" slog.LevelInfo)⟩
      "setterName").2.2.1 (by decide) (by decide)⟩

end slogsetter

/-! ## PopulateDefaultLevelMap -/

namespace slogsetter

theorem dfltLevelMap_entries :
    dfltLevelMap.entries =
      [⟨"DEBUG", slog.LevelDebug⟩, ⟨"INFO", slog.LevelInfo⟩, ⟨"WARN", slog.LevelWarn⟩,
       ⟨"ERROR", slog.LevelError⟩] := by
  decide

/-- C12: called with a non-nil pointer to a map `cur`, nil and empty included,
`PopulateDefaultLevelMap` leaves a map whose keys are the keys of `cur`
together with the keys of the default map; a key of the default map has the
default's value, whatever `cur` held for it, and every other key the value it
had in `cur`.  A nil or empty `cur` becomes the four entries DEBUG, INFO, WARN,
ERROR, whose levels increase strictly in this order. -/
theorem populateDefaultLevelMap_spec (a : Nat) (cur : Option LevelMap) :
    ∃ r : LevelMap, PopulateDefaultLevelMap (some a) cur = .ok (some r) ∧
      (∀ k, k ∈ r.keys ↔ (k ∈ (cur.getD ∅).keys ∨ k ∈ dfltLevelMap.keys)) ∧
      (∀ k, k ∈ dfltLevelMap.keys → r.lookup k = dfltLevelMap.lookup k) ∧
      (∀ k, k ∉ dfltLevelMap.keys → r.lookup k = (cur.getD ∅).lookup k) ∧
      ((cur = none ∨ cur = some ∅) →
        r.entries =
          [⟨"DEBUG", slog.LevelDebug⟩, ⟨"INFO", slog.LevelInfo⟩, ⟨"WARN", slog.LevelWarn⟩,
           ⟨"ERROR", slog.LevelError⟩]) ∧
      slog.LevelDebug < slog.LevelInfo ∧ slog.LevelInfo < slog.LevelWarn ∧
      slog.LevelWarn < slog.LevelError := by
  refine ⟨dfltLevelMap ∪ cur.getD ∅, ?_, ?_, ?_, ?_, ?_, by decide, by decide, by decide⟩
  · cases cur <;> rfl
  · intro k
    rw [← AList.mem_keys, ← AList.mem_keys, ← AList.mem_keys, AList.mem_union]
    exact Or.comm
  · intro k hk
    exact AList.lookup_union_left (AList.mem_keys.mpr hk)
  · intro k hk
    exact AList.lookup_union_right (fun h => hk (AList.mem_keys.mp h))
  · intro hcur
    have hempty : cur.getD ∅ = (∅ : LevelMap) := by
      rcases hcur with h | h <;> rw [h] <;> rfl
    rw [hempty, AList.union_empty]
    exact dfltLevelMap_entries

/-- The cases of `TestLevelPopulateDefaultLevelMap` with an entry set before
the call: the entry DEBUG: 42 is overwritten, the entry Forty-two: 42 stays. -/
theorem populateDefaultLevelMap_tests :
    PopulateDefaultLevelMap (some 0) (some (AList.singleton "DEBUG" 42))
      = .ok (some dfltLevelMap) ∧
    (∀ r, PopulateDefaultLevelMap (some 0) (some (AList.singleton "Forty-two" 42))
        = .ok (some r) →
      r.lookup "Forty-two" = some 42 ∧ r.lookup "DEBUG" = some slog.LevelDebug ∧
      r.keys.length = 5) := by
  have hd : (dfltLevelMap ∪ AList.singleton "DEBUG" 42 : LevelMap) = dfltLevelMap :=
    AList.ext (by decide)
  refine ⟨by simp only [PopulateDefaultLevelMap, mapsCopy, hd], ?_⟩
  intro r hr
  have h : r = dfltLevelMap ∪ AList.singleton "Forty-two" 42 := by
    simp only [PopulateDefaultLevelMap, mapsCopy, Except.ok.injEq, Option.some.injEq] at hr
    exact hr.symm
  subst h
  decide

/-- C13: `PopulateDefaultLevelMap` panics exactly when the pointer is nil;
with a non-nil pointer to a nil map it returns, and the map that the pointer
points to afterwards is not nil. -/
theorem populateDefaultLevelMap_panics_iff (m : Option Nat) (cur : Option LevelMap) :
    ((∃ msg, PopulateDefaultLevelMap m cur = .error msg) ↔ m = none) ∧
    PopulateDefaultLevelMap none cur
      = .error "You must call PopulateDefaultLevelMap with a non-nil pointer" ∧
    (∀ a : Nat, ∃ made : LevelMap, PopulateDefaultLevelMap (some a) none = .ok (some made)) := by
  refine ⟨?_, rfl, fun a => ⟨_, rfl⟩⟩
  cases m with
  | none => exact ⟨fun _ => rfl, fun _ => ⟨_, rfl⟩⟩
  | some a =>
    constructor
    · rintro ⟨msg, h⟩
      simp [PopulateDefaultLevelMap] at h
    · intro h
      cases h

end slogsetter

/-! ## The message of the error of SetWithVal -/

namespace slogsetter

/-- The verb `%q` writes a name of printable ASCII characters other than the
double quote and the backslash as the name itself between two double quotes. -/
theorem quote_plain (wide : Char → Bool) (n : String)
    (hplain : ∀ ch ∈ n.data, 32 ≤ ch.toNat ∧ ch.toNat ≤ 126 ∧ ch.toNat ≠ 34 ∧ ch.toNat ≠ 92) :
    strconv.Quote wide n = doubleQuote ++ n ++ doubleQuote := by
  have hflat : ∀ l : List Char,
      (∀ ch ∈ l, 32 ≤ ch.toNat ∧ ch.toNat ≤ 126 ∧ ch.toNat ≠ 34 ∧ ch.toNat ≠ 92) →
      l.flatMap (strconv.appendEscapedRune wide) = l := by
    intro l
    induction l with
    | nil => intro _; rfl
    | cons ch rest ih =>
      intro h
      obtain ⟨h₁, h₂, h₃, h₄⟩ := h ch (List.mem_cons_self _ _)
      have hch : strconv.appendEscapedRune wide ch = [ch] := by
        have hp : strconv.IsPrint wide ch = true := by
          unfold strconv.IsPrint
          rw [if_pos (by omega), if_pos ⟨h₁, h₂⟩]
        unfold strconv.appendEscapedRune
        simp only
        rw [if_neg (by omega), if_pos hp]
      rw [List.flatMap_cons, hch, ih (fun c hc => h c (List.mem_cons_of_mem _ hc))]
      rfl
  apply String.ext
  unfold strconv.Quote doubleQuote
  rw [hflat n.data hplain]
  simp [String.data_append, String.singleton]

/-- C14, as stated, fails on the name a"b: the message holds the name as the
verb `%q` writes it, with a backslash before the inner double quote, and is
not the text with the bare name between the quotes. -/
theorem setWithVal_message_escapes_quote :
    quoteName ∉ dfltSetter.effectiveLevelMap.keys ∧
    (dfltSetter.SetWithVal quotingCollab "" quoteName [] (fun _ => 0)).result
      = some (some ("bad logging level name (" ++ doubleQuote ++ "a" ++ backslash ++
          doubleQuote ++ "b" ++ doubleQuote ++ ")")) ∧
    (dfltSetter.SetWithVal quotingCollab "" quoteName [] (fun _ => 0)).result
      ≠ some (some ("bad logging level name (" ++ doubleQuote ++ quoteName ++ doubleQuote ++ ")"
          ++ quotingCollab.SuggestionString (quotingCollab.SuggestedVals quoteName []))) := by
  decide

/-- C14, amended: for a name `n` that is not a key of the effective map the
message of the error of `SetWithVal` is "bad logging level name (", the name
as the verb `%q` writes it, ")" and then the hint that the suggestion
collaborator gives for the name and the enumerated keys, and nothing else;
with an empty hint the message ends after the ")"; and whenever `%q` writes
the name as itself between two double quotes, the message is
"bad logging level name (", a double quote, the name, a double quote, ")" and
the hint. -/
theorem setWithVal_message (c : Collab) (s : Level) (name n : String) (keys : List String)
    (store : Store) (hn : n ∉ s.effectiveLevelMap.keys) :
    s.SetWithVal c name n keys store
      = Run.done (some ("bad logging level name (" ++ c.quote n ++ ")" ++
          c.SuggestionString (c.SuggestedVals n keys))) store ∧
    (c.SuggestionString (c.SuggestedVals n keys) = "" →
      s.SetWithVal c name n keys store
        = Run.done (some ("bad logging level name (" ++ c.quote n ++ ")")) store) ∧
    (c.quote n = doubleQuote ++ n ++ doubleQuote →
      s.SetWithVal c name n keys store
        = Run.done (some ("bad logging level name (" ++ doubleQuote ++ n ++ doubleQuote ++ ")"
            ++ c.SuggestionString (c.SuggestedVals n keys))) store) := by
  have hnone : s.effectiveLevelMap.lookup n = none :=
    AList.lookup_eq_none.mpr (fun h => hn (AList.mem_keys.mp h))
  have hmsg : s.SetWithVal c name n keys store
      = Run.done (some ("bad logging level name (" ++ c.quote n ++ ")" ++
          c.SuggestionString (c.SuggestedVals n keys))) store := by
    simp only [Level.SetWithVal]
    rw [hnone]
  refine ⟨hmsg, ?_, ?_⟩
  · intro hempty
    rw [hmsg, hempty, String.append_empty]
  · intro hq
    rw [hmsg, hq]
    simp only [String.append_assoc]

/-- Witness of C14, amended: the name blah on the default map, with
collaborators that quote as `%q` does and suggest nothing, as in
`TestLevelSetWithVal`. -/
theorem setWithVal_message_witness :
    dfltSetter.SetWithVal quotingCollab "" "blah" ["DEBUG", "INFO", "WARN", "ERROR"]
        (fun _ => 0)
      = Run.done (some ("bad logging level name (" ++ doubleQuote ++ "blah" ++ doubleQuote
          ++ ")")) (fun _ => 0) :=
  ((setWithVal_message quotingCollab dfltSetter "" "blah" ["DEBUG", "INFO", "WARN", "ERROR"]
      (fun _ => 0) (by decide)).2.2
    (quote_plain (fun _ => true) "blah" (by decide))).trans (by rfl)

end slogsetter

/-! ## The first name of the sorted sequence -/

namespace slogsetter

theorem walk_perm (m : LevelMap) :
    ∀ (l : List String) (last : slog.Level),
      (walkKept m last l ++ walkSkipped m last l).Perm l
  | [], _ => List.Perm.refl _
  | name :: rest, last => by
    by_cases hne : m.at name ≠ last
    · simp only [walkKept, walkSkipped, if_pos hne]
      exact (walk_perm m rest _).cons name
    · simp only [walkKept, walkSkipped, if_neg hne]
      exact List.perm_middle.trans ((walk_perm m rest _).cons name)

/-- When both presentation maps are computed from the same enumeration with
the same sorting routine, their keys together are the keys of the effective
map, each once. -/
theorem presentation_keys_of_one_walk
    (srt : (String → String → Bool) → List String → List String)
    (hsrt : sort.SliceSorter srt) (s : Level) (keys : List String)
    (hkeys : keys.Perm s.effectiveLevelMap.keys) :
    ((s.AllowedValuesMap srt keys).keys ++ (s.AllowedValuesAliasMap srt keys).keys).Perm
      s.effectiveLevelMap.keys := by
  obtain ⟨hperm, hnd, -⟩ := sortedLevelNames_levels srt hsrt s keys hkeys
  exact ((allowedValuesMap_keys srt s keys hnd).append
    (allowedValuesAliasMap_keys srt s keys hnd)).trans ((walk_perm _ _ _).trans hperm)

/-- C19: for every non-empty effective map the sorted sequence has a first
name, and this name is a key of `AllowedValuesMap` and not a key of
`AllowedValuesAliasMap`: the level `lastLevel` that the walk starts with, the
first level minus one with wrap-around, differs from the first level for
every level, the least 64 bit integer included. -/
theorem firstName_is_allowedValue
    (srt : (String → String → Bool) → List String → List String)
    (hsrt : sort.SliceSorter srt) (s : Level) (keys : List String)
    (hkeys : keys.Perm s.effectiveLevelMap.keys) (hne : s.effectiveLevelMap.keys ≠ []) :
    ∃ first rest, s.sortedLevelNames srt keys = first :: rest ∧
      slog.wrap (s.effectiveLevelMap.at first - 1) ≠ s.effectiveLevelMap.at first ∧
      first ∈ (s.AllowedValuesMap srt keys).keys ∧
      first ∉ (s.AllowedValuesAliasMap srt keys).keys := by
  obtain ⟨hperm, hnd, -⟩ := sortedLevelNames_levels srt hsrt s keys hkeys
  have hk := allowedValuesMap_keys srt s keys hnd
  have ha := allowedValuesAliasMap_keys srt s keys hnd
  cases hnames : s.sortedLevelNames srt keys with
  | nil =>
    rw [hnames] at hperm
    exact absurd hperm.nil_eq.symm hne
  | cons first rest =>
    rw [hnames] at hk ha hnd
    rw [walkKept_start] at hk
    rw [walkSkipped_start] at ha
    refine ⟨first, rest, rfl, wrap_pred_ne _, hk.mem_iff.mpr (List.mem_cons_self _ _), ?_⟩
    intro hmem
    have hrest : first ∈ rest := (walkSkipped_sublist _ _ _).subset (ha.mem_iff.mp hmem)
    exact (List.nodup_cons.mp hnd).1 hrest

/-- Witness of C19: a map whose lowest level is the least 64 bit integer, so
that the subtraction wraps around to the greatest one. -/
theorem firstName_is_allowedValue_witness :
    slog.wrap (minSetter.effectiveLevelMap.at "lo" - 1) = 9223372036854775807 ∧
    ∃ first rest, minSetter.sortedLevelNames sort.insertionSort_func ["hi", "lo"]
        = first :: rest ∧
      slog.wrap (minSetter.effectiveLevelMap.at first - 1) ≠ minSetter.effectiveLevelMap.at first ∧
      first ∈ (minSetter.AllowedValuesMap sort.insertionSort_func ["hi", "lo"]).keys ∧
      first ∉ (minSetter.AllowedValuesAliasMap sort.insertionSort_func ["hi", "lo"]).keys :=
  ⟨by decide,
   firstName_is_allowedValue sort.insertionSort_func sort.insertionSort_func_sliceSorter
    minSetter ["hi", "lo"] (by decide) (by decide)⟩

/-- C20: on the map DEBUG: INFO, INFO: INFO, which `SetWithVal` accepts both
names of, when the keys are enumerated as DEBUG, INFO for `AllowedValuesMap`
and as INFO, DEBUG for `AllowedValuesAliasMap`, the name INFO is a key of both
presentation maps and the name DEBUG is a key of neither. -/
theorem presentation_keys_no_partition_on_tiedMap :
    ["DEBUG", "INFO"].Perm tiedSetter.effectiveLevelMap.keys ∧
    ["INFO", "DEBUG"].Perm tiedSetter.effectiveLevelMap.keys ∧
    (tiedSetter.SetWithVal plainCollab "" "DEBUG" [] (fun _ => 7)).result = some none ∧
    (tiedSetter.SetWithVal plainCollab "" "INFO" [] (fun _ => 7)).result = some none ∧
    "INFO" ∈ (tiedSetter.AllowedValuesMap sort.insertionSort_func ["DEBUG", "INFO"]).keys ∧
    "INFO" ∈ (tiedSetter.AllowedValuesAliasMap sort.insertionSort_func ["INFO", "DEBUG"]).keys ∧
    "DEBUG" ∉ (tiedSetter.AllowedValuesMap sort.insertionSort_func ["DEBUG", "INFO"]).keys ∧
    "DEBUG" ∉ (tiedSetter.AllowedValuesAliasMap sort.insertionSort_func ["INFO", "DEBUG"]).keys := by
  decide

end slogsetter

/-! ## A setter with the default entries only -/

namespace slogsetter

theorem sortedLevelNames_congr (srt : (String → String → Bool) → List String → List String)
    (s s' : Level) (keys : List String) (hm : s.effectiveLevelMap = s'.effectiveLevelMap) :
    s.sortedLevelNames srt keys = s'.sortedLevelNames srt keys := by
  unfold Level.sortedLevelNames
  rw [hm]

theorem allowedValuesMap_congr
    (srt srt' : (String → String → Bool) → List String → List String)
    (s s' : Level) (keys keys' : List String) (hm : s.effectiveLevelMap = s'.effectiveLevelMap)
    (hn : s.sortedLevelNames srt keys = s'.sortedLevelNames srt' keys') :
    s.AllowedValuesMap srt keys = s'.AllowedValuesMap srt' keys' := by
  unfold Level.AllowedValuesMap
  rw [hm, hn]

theorem allowedValuesAliasMap_congr
    (srt srt' : (String → String → Bool) → List String → List String)
    (s s' : Level) (keys keys' : List String) (hm : s.effectiveLevelMap = s'.effectiveLevelMap)
    (hn : s.sortedLevelNames srt keys = s'.sortedLevelNames srt' keys') :
    s.AllowedValuesAliasMap srt keys = s'.AllowedValuesAliasMap srt' keys' := by
  unfold Level.AllowedValuesAliasMap
  rw [hm, hn]

theorem dfltLevelMap_untied : Untied dfltLevelMap := by
  unfold Untied
  decide

/-- C16: for a setter whose `LevelMap` is nil, or is a nil or empty map filled
by `PopulateDefaultLevelMap`, `AllowedValuesMap` holds the four entries
DEBUG, INFO, WARN, ERROR, each name with itself as value, and
`AllowedValuesAliasMap` is empty; for every enumeration of the keys and every
routine in the place of `sort.Slice` that meets `sort.SliceSorter`. -/
theorem defaults_only_presentation
    (srt : (String → String → Bool) → List String → List String)
    (hsrt : sort.SliceSorter srt) (s : Level) (keys : List String)
    (hs : s.LevelMap = none ∨
      ∃ (a : Nat) (cur : Option LevelMap), (cur = none ∨ cur = some ∅) ∧
        PopulateDefaultLevelMap (some a) cur = .ok s.LevelMap)
    (hkeys : keys.Perm s.effectiveLevelMap.keys) :
    (s.AllowedValuesMap srt keys).entries.Perm
      [⟨"DEBUG", "DEBUG"⟩, ⟨"INFO", "INFO"⟩, ⟨"WARN", "WARN"⟩, ⟨"ERROR", "ERROR"⟩] ∧
    (∀ k ∈ ["DEBUG", "INFO", "WARN", "ERROR"],
      (s.AllowedValuesMap srt keys).lookup k = some k) ∧
    (s.AllowedValuesAliasMap srt keys).entries = [] := by
  have heff : s.effectiveLevelMap = dfltSetter.effectiveLevelMap := by
    obtain ⟨v, lm⟩ := s
    rcases hs with h | ⟨a, cur, hcur, h⟩
    · simp only at h
      subst h
      rfl
    · have hempty : (match cur with | none => (∅ : LevelMap) | some c => c) = ∅ := by
        rcases hcur with hc | hc <;> rw [hc]
      simp only [PopulateDefaultLevelMap, mapsCopy, hempty, AList.union_empty,
        Except.ok.injEq] at h
      rw [← h]
      rfl
  have hnames : s.sortedLevelNames srt keys
      = dfltSetter.sortedLevelNames sort.insertionSort_func dfltLevelMap.keys := by
    rw [sortedLevelNames_congr srt s dfltSetter keys heff]
    exact sortedLevelNames_unique_of_untied srt sort.insertionSort_func hsrt
      sort.insertionSort_func_sliceSorter dfltSetter dfltLevelMap_untied keys
      dfltLevelMap.keys (heff ▸ hkeys) (List.Perm.refl _)
  rw [allowedValuesMap_congr srt sort.insertionSort_func s dfltSetter keys dfltLevelMap.keys
      heff hnames,
    allowedValuesAliasMap_congr srt sort.insertionSort_func s dfltSetter keys
      dfltLevelMap.keys heff hnames]
  decide

/-- Witness of C16: the setter with a nil `LevelMap`, the keys of the default
map enumerated as WARN, DEBUG, ERROR, INFO. -/
theorem defaults_only_presentation_witness :
    (dfltSetter.AllowedValuesMap sort.insertionSort_func
        ["WARN", "DEBUG", "ERROR", "INFO"]).entries.Perm
      [⟨"DEBUG", "DEBUG"⟩, ⟨"INFO", "INFO"⟩, ⟨"WARN", "WARN"⟩, ⟨"ERROR", "ERROR"⟩] ∧
    (∀ k ∈ ["DEBUG", "INFO", "WARN", "ERROR"],
      (dfltSetter.AllowedValuesMap sort.insertionSort_func
        ["WARN", "DEBUG", "ERROR", "INFO"]).lookup k = some k) ∧
    (dfltSetter.AllowedValuesAliasMap sort.insertionSort_func
        ["WARN", "DEBUG", "ERROR", "INFO"]).entries = [] :=
  defaults_only_presentation sort.insertionSort_func sort.insertionSort_func_sliceSorter
    dfltSetter ["WARN", "DEBUG", "ERROR", "INFO"] (Or.inl rfl) (by decide)

end slogsetter

/-! ## The default map is never stored into -/

namespace slogsetter

theorem dfltLevelMap_copy_self : mapsCopy dfltLevelMap dfltLevelMap = dfltLevelMap :=
  AList.ext (by decide)

/-- In a sound memory the methods see the same effective map as on the setter
with its map given by value. -/
theorem view_effectiveLevelMap (w : World) (hw : w.Sound) (s : LevelRef) :
    (w.view s).effectiveLevelMap
      = (Level.mk s.Value (s.LevelMap.map w.mapObjs)).effectiveLevelMap := by
  obtain ⟨v, lm⟩ := s
  cases lm with
  | none => exact hw.2
  | some r => rfl

/-- In a sound memory the map that `*m` refers to after the call is the one
that `PopulateDefaultLevelMap` on values gives. -/
theorem step_populate_agrees (c : Collab) (w : World) (hw : w.Sound) (a : Nat) :
    PopulateDefaultLevelMap (some a) ((w.mapVars a).map w.mapObjs)
      = .ok (((w.step c (.PopulateDefaultLevelMap (some a))).mapVars a).map
          (w.step c (.PopulateDefaultLevelMap (some a))).mapObjs) := by
  cases hvar : w.mapVars a with
  | none =>
    simp only [World.step, hvar, PopulateDefaultLevelMap, Option.map, Function.update_same,
      hw.2]
  | some r =>
    simp only [World.step, hvar, PopulateDefaultLevelMap, Option.map, Function.update_same,
      hw.2]

theorem step_sound (c : Collab) (w : World) (hw : w.Sound) (call : Call) :
    (w.step c call).Sound := by
  obtain ⟨hnext, hobj⟩ := hw
  cases call with
  | PopulateDefaultLevelMap m =>
    cases m with
    | none => exact ⟨hnext, hobj⟩
    | some a =>
      cases hvar : w.mapVars a with
      | none =>
        simp only [World.step, hvar, World.Sound]
        refine ⟨Nat.lt_succ_of_lt hnext, ?_⟩
        rw [Function.update_noteq (Nat.ne_of_lt hnext)]
        exact hobj
      | some r =>
        simp only [World.step, hvar, World.Sound]
        refine ⟨hnext, ?_⟩
        by_cases hr : r = dfltRef
        · subst hr
          rw [Function.update_same, hobj]
          exact dfltLevelMap_copy_self
        · rw [Function.update_noteq (fun h => hr h.symm)]
          exact hobj
  | SetWithVal s name paramVal keys =>
    simp only [World.step]
    split <;> exact ⟨hnext, hobj⟩
  | sortedLevelNames s keys => exact ⟨hnext, hobj⟩
  | AllowedValuesMap s keys => exact ⟨hnext, hobj⟩
  | AllowedValuesAliasMap s keys => exact ⟨hnext, hobj⟩
  | CurrentValue s => exact ⟨hnext, hobj⟩
  | CheckSetter s name => exact ⟨hnext, hobj⟩

theorem run_sound (c : Collab) (calls : List Call) :
    ∀ w : World, w.Sound → (w.run c calls).Sound := by
  induction calls with
  | nil => intro w hw; exact hw
  | cons call rest ih => intro w hw; exact ih _ (step_sound c w hw call)

/-- C17: from a memory in which the object of `dfltLevelMap` holds its
initial entries, after every sequence of calls of `PopulateDefaultLevelMap`,
`SetWithVal`, `sortedLevelNames`, `AllowedValuesMap`, `AllowedValuesAliasMap`,
`CurrentValue` and `CheckSetter`, with any setters, pointers and arguments,
also pointers to a variable that refers to the default map itself, that object
still holds exactly the four initial entries; and every call other than
`PopulateDefaultLevelMap` leaves every map object and every map variable, the
setter's `LevelMap` among them, as it was. -/
theorem dfltLevelMap_never_mutated (c : Collab) (w : World) (calls : List Call)
    (hw : w.Sound) :
    (w.run c calls).mapObjs dfltRef = dfltLevelMap ∧
    ((w.run c calls).mapObjs dfltRef).entries =
      [⟨"DEBUG", slog.LevelDebug⟩, ⟨"INFO", slog.LevelInfo⟩, ⟨"WARN", slog.LevelWarn⟩,
       ⟨"ERROR", slog.LevelError⟩] ∧
    (∀ (w' : World) (call : Call), (∀ m, call ≠ Call.PopulateDefaultLevelMap m) →
      (w'.step c call).mapObjs = w'.mapObjs ∧ (w'.step c call).mapVars = w'.mapVars) := by
  have hs := (run_sound c calls w hw).2
  refine ⟨hs, by rw [hs]; exact dfltLevelMap_entries, ?_⟩
  intro w' call hcall
  cases call with
  | PopulateDefaultLevelMap m => exact absurd rfl (hcall m)
  | SetWithVal s name paramVal keys =>
    simp only [World.step]
    split <;> exact ⟨rfl, rfl⟩
  | sortedLevelNames s keys => exact ⟨rfl, rfl⟩
  | AllowedValuesMap s keys => exact ⟨rfl, rfl⟩
  | AllowedValuesAliasMap s keys => exact ⟨rfl, rfl⟩
  | CurrentValue s => exact ⟨rfl, rfl⟩
  | CheckSetter s name => exact ⟨rfl, rfl⟩

/-- Witness of C17: a memory in which the map variable at address 9 refers to
the default map itself; the calls populate through a pointer to it, through a
pointer to a nil map variable and through a nil pointer, set a level and ask
for the presentation maps. -/
theorem dfltLevelMap_never_mutated_witness :
    (aliasWorld.run plainCollab
      [Call.PopulateDefaultLevelMap (some 9), Call.PopulateDefaultLevelMap (some 3),
       Call.PopulateDefaultLevelMap none,
       Call.SetWithVal ⟨some 0, some 1⟩ "" "WARN" ["DEBUG", "INFO", "WARN", "ERROR"],
       Call.AllowedValuesMap ⟨some 0, none⟩ ["DEBUG", "INFO", "WARN", "ERROR"],
       Call.AllowedValuesAliasMap ⟨some 0, some 1⟩ ["DEBUG", "INFO", "WARN", "ERROR"],
       Call.CheckSetter ⟨none, none⟩ "setterName"]).mapObjs dfltRef = dfltLevelMap :=
  (dfltLevelMap_never_mutated plainCollab aliasWorld _ ⟨by decide, rfl⟩).1

end slogsetter

/-! ## Further facts on the presentation maps and on the memory -/

namespace slogsetter

/-- On a map without two default names of equal level the keys of the two
presentation maps together are the keys of the effective map, each once, also
when the two maps are computed from different enumerations and with different
sorting routines. -/
theorem presentation_keys_of_untied
    (srt₁ srt₂ : (String → String → Bool) → List String → List String)
    (h₁ : sort.SliceSorter srt₁) (h₂ : sort.SliceSorter srt₂) (s : Level)
    (hm : Untied s.effectiveLevelMap) (keys₁ keys₂ : List String)
    (hk₁ : keys₁.Perm s.effectiveLevelMap.keys) (hk₂ : keys₂.Perm s.effectiveLevelMap.keys) :
    ((s.AllowedValuesMap srt₁ keys₁).keys ++ (s.AllowedValuesAliasMap srt₂ keys₂).keys).Perm
      s.effectiveLevelMap.keys := by
  rw [allowedValuesAliasMap_congr srt₂ srt₁ s s keys₂ keys₁ rfl
    (sortedLevelNames_unique_of_untied srt₂ srt₁ h₂ h₁ s hm keys₂ keys₁ hk₂ hk₁)]
  exact presentation_keys_of_one_walk srt₁ h₁ s keys₁ hk₁

/-- A run on the memory: the map variable at address 3 is nil and gets a new
map object with the default entries, through which `SetWithVal` then sets the
level variable at address 0 to WARN. -/
theorem test_world_run :
    (aliasWorld.run plainCollab
      [Call.PopulateDefaultLevelMap (some 3),
       Call.SetWithVal ⟨some 0, some 1⟩ "" "WARN" ["DEBUG", "INFO", "WARN", "ERROR"],
       Call.SetWithVal ⟨some 0, some 1⟩ "" "blah" ["DEBUG", "INFO", "WARN", "ERROR"]]).levels 0
      = slog.LevelWarn ∧
    (aliasWorld.run plainCollab [Call.PopulateDefaultLevelMap (some 3)]).mapVars 3 = some 1 ∧
    ((aliasWorld.run plainCollab [Call.PopulateDefaultLevelMap (some 3)]).mapObjs 1).entries
      = dfltLevelMap.entries := by
  decide

end slogsetter
